import Mathlib

set_option maxHeartbeats 1000000
set_option maxRecDepth 8000

/-!
Verification development for a BPE token codec and chunk splitter
(src/tokenizer/tokenizer.py, src/tokenizer/main.py).

Text is modelled as a list of Unicode code points (a Python str is a
sequence of code points below 0x110000, possibly containing unpaired
surrogates); bytes are naturals below 256.  The native byte-pair merge
engine, the regex splitter and the platform UTF-8/UTF-16 codecs are
external capabilities; they are modelled from the specification's
contracts, as marked on each definition.
-/

namespace Tokenizer

abbrev ByteSeq := List Nat

abbrev Text := List Nat

/-- A UTF-8 continuation byte, as tested by the source: 0x80 <= b < 0xC0. -/
def isContByte (b : Nat) : Bool := decide (0x80 ≤ b ∧ b < 0xC0)

/-- A Unicode scalar value: a code point that is not a surrogate. -/
def isScalar (c : Nat) : Bool := decide (c < 0x110000 ∧ ¬ (0xD800 ≤ c ∧ c < 0xE000))

def isHighSur (c : Nat) : Bool := decide (0xD800 ≤ c ∧ c < 0xDC00)

def isLowSur (c : Nat) : Bool := decide (0xDC00 ≤ c ∧ c < 0xE000)

/-- Modelled from the spec: the platform UTF-8 encoder for one scalar value
(the Codec encodes pieces and special-token literals as UTF-8 bytes). -/
def utf8EncodeChar (c : Nat) : ByteSeq :=
  if c < 0x80 then [c]
  else if c < 0x800 then [0xC0 + c / 64, 0x80 + c % 64]
  else if c < 0x10000 then [0xE0 + c / 4096, 0x80 + c / 64 % 64, 0x80 + c % 64]
  else [0xF0 + c / 262144, 0x80 + c / 4096 % 64, 0x80 + c / 64 % 64, 0x80 + c % 64]

/-- UTF-8 bytes of a whole text (defined only on scalar texts; callers check). -/
def utf8Bytes (t : Text) : ByteSeq := (t.map utf8EncodeChar).flatten

/-- Tail of a two-byte UTF-8 sequence with lead byte b. -/
def decodeTail2 (b : Nat) : ByteSeq → Option (Nat × ByteSeq)
  | b1 :: bs1 =>
    if 0x80 ≤ b1 ∧ b1 < 0xC0 then some ((b - 0xC0) * 64 + (b1 - 0x80), bs1) else none
  | [] => none

/-- Tail of a three-byte UTF-8 sequence with lead byte b (rejecting overlong
forms and surrogates). -/
def decodeTail3 (b : Nat) : ByteSeq → Option (Nat × ByteSeq)
  | b1 :: b2 :: bs2 =>
    if (0x80 ≤ b1 ∧ b1 < 0xC0) ∧ (0x80 ≤ b2 ∧ b2 < 0xC0) ∧
        (b = 0xE0 → 0xA0 ≤ b1) ∧ (b = 0xED → b1 < 0xA0) then
      some ((b - 0xE0) * 4096 + (b1 - 0x80) * 64 + (b2 - 0x80), bs2)
    else none
  | [_] => none
  | [] => none

/-- Tail of a four-byte UTF-8 sequence with lead byte b (rejecting overlong
forms and values above 0x10FFFF). -/
def decodeTail4 (b : Nat) : ByteSeq → Option (Nat × ByteSeq)
  | b1 :: b2 :: b3 :: bs3 =>
    if (0x80 ≤ b1 ∧ b1 < 0xC0) ∧ (0x80 ≤ b2 ∧ b2 < 0xC0) ∧ (0x80 ≤ b3 ∧ b3 < 0xC0) ∧
        (b = 0xF0 → 0x90 ≤ b1) ∧ (b = 0xF4 → b1 < 0x90) then
      some ((b - 0xF0) * 262144 + (b1 - 0x80) * 4096 + (b2 - 0x80) * 64 + (b3 - 0x80), bs3)
    else none
  | [_, _] => none
  | [_] => none
  | [] => none

/-- Modelled from the spec: one step of a strict UTF-8 decoder; returns the
decoded scalar and the remaining bytes, or none on malformed input
(continuation byte in lead position, overlong form, surrogate, out of range,
truncated sequence). -/
def decodeOne : ByteSeq → Option (Nat × ByteSeq)
  | [] => none
  | b :: bs =>
    if b < 0x80 then some (b, bs)
    else if b < 0xC2 then none
    else if b < 0xE0 then decodeTail2 b bs
    else if b < 0xF0 then decodeTail3 b bs
    else if b < 0xF5 then decodeTail4 b bs
    else none

/-- Fuelled strict UTF-8 decode (fuel at least the byte count suffices). -/
def utf8DecodeGo : Nat → ByteSeq → Option Text
  | _, [] => some []
  | 0, _ :: _ => none
  | fuel + 1, b :: bs =>
    match decodeOne (b :: bs) with
    | none => none
    | some (c, rest) => (utf8DecodeGo fuel rest).map (fun t => c :: t)

/-- Modelled from the spec: the platform strict UTF-8 decoder. -/
def utf8Decode (bs : ByteSeq) : Option Text := utf8DecodeGo bs.length bs

/-- Modelled from the spec: the "replace" UTF-8 error policy substitutes a
replacement marker per malformed sequence and always succeeds. -/
def pyDecodeReplaceGo : Nat → ByteSeq → Text
  | _, [] => []
  | 0, l => l.map (fun _ => 0xFFFD)
  | fuel + 1, b :: bs =>
    match decodeOne (b :: bs) with
    | some (c, rest) => c :: pyDecodeReplaceGo fuel rest
    | none => 0xFFFD :: pyDecodeReplaceGo fuel bs

/-- The errors argument of decode: "strict" or "replace". -/
inductive DecodeMode
  | strict
  | replace

/-- Errors surfaced by the codec, the constructor and the chunk splitter. -/
inductive PyError
  | disallowedSpecialToken (s : Text)
  | unicodeEncodeError
  | unknownToken (tok : Nat)
  | indexError
  | malformedUtf8
  | keyError
  | valueError
  | assertionError
deriving DecidableEq, Repr

/-- Modelled from the spec: bytes.decode("utf-8", errors) with the selected policy. -/
def pyUtf8Decode (mode : DecodeMode) (bs : ByteSeq) : Except PyError Text :=
  match mode with
  | .strict =>
    match utf8Decode bs with
    | some t => .ok t
    | none => .error .malformedUtf8
  | .replace => .ok (pyDecodeReplaceGo bs.length bs)

/-- Modelled from the spec: text.encode("utf-16", "surrogatepass").decode("utf-16", "replace").
As UTF-16 code units, an adjacent high+low surrogate pair decodes to one astral
scalar, and each unpaired surrogate unit decodes to the replacement marker. -/
def mergeSurrogates : Text → Text
  | [] => []
  | [c] =>
    if isHighSur c then [0xFFFD]
    else if isLowSur c then [0xFFFD]
    else [c]
  | c :: d :: rest2 =>
    if isHighSur c then
      if isLowSur d then
        (0x10000 + (c - 0xD800) * 0x400 + (d - 0xDC00)) :: mergeSurrogates rest2
      else 0xFFFD :: mergeSurrogates (d :: rest2)
    else if isLowSur c then 0xFFFD :: mergeSurrogates (d :: rest2)
    else c :: mergeSurrogates (d :: rest2)

/-- The mergeable-rank table: byte sequence to integer rank (a Python dict,
modelled as an association list with unique keys). -/
abbrev Ranks := List (ByteSeq × Nat)

/-- Rank of a byte group, if present in the table. -/
def lookupRank (ranks : Ranks) (g : ByteSeq) : Option Nat :=
  (ranks.find? (fun p => decide (p.1 = g))).map Prod.snd

/-- Byte group of a rank, if present in the table (the decoder direction). -/
def reverseLookup (ranks : Ranks) (r : Nat) : Option ByteSeq :=
  (ranks.find? (fun p => decide (p.2 = r))).map Prod.fst

/-- Replace the adjacent groups at positions i and i+1 by their concatenation. -/
def mergeAt (gs : List ByteSeq) (i : Nat) : List ByteSeq :=
  gs.take i ++ [gs.getD i [] ++ gs.getD (i + 1) []] ++ gs.drop (i + 2)

/-- Positions (with ranks) of all adjacent pairs whose concatenation is in the table. -/
def mergeCandidates (ranks : Ranks) (gs : List ByteSeq) : List (Nat × Nat) :=
  (List.range (gs.length - 1)).filterMap
    (fun i => (lookupRank ranks (gs.getD i [] ++ gs.getD (i + 1) [])).map (fun r => (i, r)))

/-- The position of the leftmost adjacent pair of numerically lowest rank, if any. -/
def bestMerge (ranks : Ranks) (gs : List ByteSeq) : Option Nat :=
  ((mergeCandidates ranks gs).foldl
    (fun best c =>
      match best with
      | none => some c
      | some b => if c.2 < b.2 then some c else best) none).map Prod.fst

/-- Modelled from the spec: the merge loop of the external byte-pair merge
engine; repeatedly merge the lowest-ranked adjacent pair until no adjacent
pair's concatenation is in the table (fuel bounds the merge count). -/
def bpeLoop (ranks : Ranks) : Nat → List ByteSeq → List ByteSeq
  | 0, gs => gs
  | fuel + 1, gs =>
    match bestMerge ranks gs with
    | none => gs
    | some i => bpeLoop ranks fuel (mergeAt gs i)

/-- Modelled from the spec: run the merge engine on one piece, starting from
single-byte groups. -/
def bytePairMerge (ranks : Ranks) (piece : ByteSeq) : List ByteSeq :=
  bpeLoop ranks piece.length (piece.map (fun b => [b]))

/-- Modelled from the spec: the ordinary-token output of the merge engine for
one regex-split piece: the final byte groups mapped, group by group, to ranks. -/
def encodePiece (ranks : Ranks) (piece : ByteSeq) : List Nat :=
  (bytePairMerge ranks piece).map (fun g => (lookupRank ranks g).getD 0)

/-- The Vocabulary plus the regex splitter held by an Encoding
(Encoding.__init__ fields; the compiled pattern is modelled as the piece
splitting function it induces). -/
structure Encoding where
  name : String
  patSplit : Text → List Text
  mergeable_ranks : Ranks
  special_tokens : List (Text × Nat)
  max_token_value : Nat

/-- Encoding.special_tokens_set: the set of special-token literals. -/
def special_tokens_set (e : Encoding) : List Text := e.special_tokens.map Prod.fst

/-- Encoding.__init__: computes max_token_value as
max(max(mergeable_ranks.values()), max(special_tokens.values(), default=0))
(ValueError on an empty rank table), then, only when explicit_n_vocab is
truthy (present and nonzero), asserts that the table sizes sum to it and that
max_token_value equals it minus one. -/
def mkEncoding (name : String) (patSplit : Text → List Text) (mergeable_ranks : Ranks)
    (special_tokens : List (Text × Nat)) (explicit_n_vocab : Option Nat) :
    Except PyError Encoding :=
  match mergeable_ranks with
  | [] => .error .valueError
  | q :: qs =>
    match explicit_n_vocab with
    | some n =>
      if n ≠ 0 then
        if (q :: qs).length + special_tokens.length = n ∧
            Nat.max (((q :: qs).map Prod.snd).foldl Nat.max 0)
              ((special_tokens.map Prod.snd).foldl Nat.max 0) = n - 1 then
          .ok ⟨name, patSplit, q :: qs, special_tokens,
            Nat.max (((q :: qs).map Prod.snd).foldl Nat.max 0)
              ((special_tokens.map Prod.snd).foldl Nat.max 0)⟩
        else .error .assertionError
      else
        .ok ⟨name, patSplit, q :: qs, special_tokens,
          Nat.max (((q :: qs).map Prod.snd).foldl Nat.max 0)
            ((special_tokens.map Prod.snd).foldl Nat.max 0)⟩
    | none =>
      .ok ⟨name, patSplit, q :: qs, special_tokens,
        Nat.max (((q :: qs).map Prod.snd).foldl Nat.max 0)
          ((special_tokens.map Prod.snd).foldl Nat.max 0)⟩

/-- Encoding.eot_token: looks up the empty string key in the special-token table. -/
def eot_token (e : Encoding) : Except PyError Nat :=
  match e.special_tokens.find? (fun p => decide (p.1 = ([] : Text))) with
  | some p => .ok p.2
  | none => .error .keyError

/-- The literal s occurs in t at position n. -/
def occursAt (s t : Text) (n : Nat) : Prop := (t.drop n).take s.length = s

/-- The literal s is a prefix of u (how the regex alternation tests one position). -/
def isPre (s u : Text) : Bool := decide (u.take s.length = s)

/-- Modelled from the spec: _special_token_regex(dis).search(text) - the
leftmost occurrence of any disallowed special-token literal (alternatives
tried in table order at each position). -/
def findDisallowed (dis : List Text) : Text → Option Text
  | [] => dis.find? (fun s => decide (s = ([] : Text)))
  | c :: rest =>
    match dis.find? (fun s => isPre s (c :: rest)) with
    | some s => some s
    | none => findDisallowed dis rest

/-- An allowed_special / disallowed_special argument: the sentinel "all" or an
explicit collection of special-token literals. -/
inductive SpecialArg
  | all
  | explicit (l : List Text)

/-- Resolution of allowed_special (Encoding.encode line 62, encode_batch line 100). -/
def resolveAllowed (e : Encoding) : SpecialArg → List Text
  | .all => special_tokens_set e
  | .explicit l => l

/-- Resolution of disallowed_special against the resolved allowed set
(Encoding.encode line 64, encode_batch line 101). -/
def resolveDisallowed (e : Encoding) (a : SpecialArg) : SpecialArg → List Text
  | .all => (special_tokens_set e).filter (fun s => decide (s ∉ resolveAllowed e a))
  | .explicit l => l

/-- The special-token table entries whose literal is in the allowed set. -/
def allowedEntries (e : Encoding) (allowed : List Text) : List (Text × Nat) :=
  e.special_tokens.filter (fun p => decide (p.1 ∈ allowed))

/-- Modelled from the spec: CoreBPE.encode_ordinary on scalar text - split by
the pattern into pieces, run the merge engine on each piece's UTF-8 bytes,
concatenate in piece order. -/
def coreOrdinaryTokens (e : Encoding) (t : Text) : List Nat :=
  ((e.patSplit t).map (fun piece => encodePiece e.mergeable_ranks (utf8Bytes piece))).flatten

/-- Modelled from the spec: CoreBPE.encode_ordinary; raises UnicodeEncodeError
when the text contains code points that cannot be represented as UTF-8
(unpaired surrogates). -/
def coreEncodeOrdinary (e : Encoding) (t : Text) : Except PyError (List Nat) :=
  if t.all isScalar then .ok (coreOrdinaryTokens e t) else .error .unicodeEncodeError

/-- Encoding.encode_ordinary: try the engine; on UnicodeEncodeError re-encode
the text lossily (UTF-16 surrogatepass round trip) and retry once. -/
def encode_ordinary (e : Encoding) (t : Text) : Except PyError (List Nat) :=
  match coreEncodeOrdinary e t with
  | .ok r => .ok r
  | .error _ => coreEncodeOrdinary e (mergeSurrogates t)

/-- Leftmost occurrence of an allowed special literal: the text before it, the
matched entry's id, and the text after it. -/
def splitFirstSpecial (entries : List (Text × Nat)) : Text → Option (Text × Nat × Text)
  | [] => (entries.find? (fun p => decide (p.1 = ([] : Text)))).map
      (fun p => (([] : Text), p.2, ([] : Text)))
  | c :: rest =>
    match entries.find? (fun p => isPre p.1 (c :: rest)) with
    | some p => some (([] : Text), p.2, (c :: rest).drop p.1.length)
    | none => (splitFirstSpecial entries rest).map (fun q => (c :: q.1, q.2.1, q.2.2))

/-- Modelled from the spec: CoreBPE.encode on scalar text - recognize
occurrences of allowed special tokens as atomic tokens with their reserved id
and tokenize the surrounding ordinary text with the merge engine, preserving
the left-to-right interleaving (fuel bounds the number of occurrences). -/
def coreEncodeSpecialGo (e : Encoding) (entries : List (Text × Nat)) :
    Nat → Text → List Nat
  | 0, t => coreOrdinaryTokens e t
  | fuel + 1, t =>
    match splitFirstSpecial entries t with
    | none => coreOrdinaryTokens e t
    | some (pre, tokId, post) =>
      coreOrdinaryTokens e pre ++ tokId :: coreEncodeSpecialGo e entries fuel post

/-- Modelled from the spec: CoreBPE.encode with an allowed-special set, on scalar text. -/
def coreSpecialTokens (e : Encoding) (allowed : List Text) (t : Text) : List Nat :=
  coreEncodeSpecialGo e (allowedEntries e allowed) (t.length + 1) t

/-- Modelled from the spec: CoreBPE.encode; raises UnicodeEncodeError on
unpaired surrogates. -/
def coreEncode (e : Encoding) (allowed : List Text) (t : Text) : Except PyError (List Nat) :=
  if t.all isScalar then .ok (coreSpecialTokens e allowed t) else .error .unicodeEncodeError

/-- Encoding.encode: resolve the special-token arguments; if the resolved
disallowed set is non-empty, scan the text and fail with
DisallowedSpecialToken naming the matched literal; otherwise run the engine,
with the same lossy re-encode-and-retry fallback as encode_ordinary. -/
def encode (e : Encoding) (t : Text) (a d : SpecialArg) : Except PyError (List Nat) :=
  match (if resolveDisallowed e a d ≠ [] then findDisallowed (resolveDisallowed e a d) t
      else none) with
  | some s => .error (.disallowedSpecialToken s)
  | none =>
    match coreEncode e (resolveAllowed e a) t with
    | .ok r => .ok r
    | .error _ => coreEncode e (resolveAllowed e a) (mergeSurrogates t)

/-- Encoding.encode_batch: resolve the special-token arguments once, then map
Encoding.encode over the texts with a worker pool; the pool is modelled by its
documented order-preserving contract (output order is input order, independent
of the thread count, which is therefore a phantom parameter). -/
def encode_batch (e : Encoding) (texts : List Text) (numThreads : Nat)
    (a d : SpecialArg) : List (Except PyError (List Nat)) :=
  texts.map (fun t =>
    encode e t (.explicit (resolveAllowed e a)) (.explicit (resolveDisallowed e a d)))

/-- Modelled from the spec: CoreBPE.encode_with_unstable - a stable token
prefix plus candidate completion sequences; the candidate enumeration is
delegated to the engine and left unspecified, modelled as the full encoding
with no extra candidates. -/
def coreEncodeUnstable (e : Encoding) (allowed : List Text) (t : Text) :
    List Nat × List (List Nat) :=
  (coreSpecialTokens e allowed t, [])

/-- Encoding.encode_with_unstable: the same resolution and disallowed scan as
Encoding.encode, then the engine call; note the source has no
UnicodeEncodeError fallback here. -/
def encode_with_unstable (e : Encoding) (t : Text) (a d : SpecialArg) :
    Except PyError (List Nat × List (List Nat)) :=
  match (if resolveDisallowed e a d ≠ [] then findDisallowed (resolveDisallowed e a d) t
      else none) with
  | some s => .error (.disallowedSpecialToken s)
  | none =>
    if t.all isScalar then .ok (coreEncodeUnstable e (resolveAllowed e a) t)
    else .error .unicodeEncodeError

/-- Modelled from the spec: the byte sequence of one token id - ordinary
tokens through the inverse rank table, special tokens as the UTF-8 bytes of
their literal, none when the id has no mapping. -/
def decodeTokenBytes (e : Encoding) (tok : Nat) : Option ByteSeq :=
  match reverseLookup e.mergeable_ranks tok with
  | some g => some g
  | none =>
    match e.special_tokens.find? (fun p => decide (p.2 = tok)) with
    | some p => some (utf8Bytes p.1)
    | none => none

/-- Encoding.decode_bytes: concatenate, in order, the byte sequence of each
token; UnknownToken when an id has no mapping. -/
def decode_bytes (e : Encoding) : List Nat → Except PyError ByteSeq
  | [] => .ok []
  | tok :: rest =>
    match decodeTokenBytes e tok with
    | none => .error (.unknownToken tok)
    | some g => (decode_bytes e rest).map (fun bs => g ++ bs)

/-- Encoding.decode: UTF-8 decode of decode_bytes under the selected error policy. -/
def decode (e : Encoding) (tokens : List Nat) (mode : DecodeMode) : Except PyError Text :=
  match decode_bytes e tokens with
  | .error err => .error err
  | .ok bs => pyUtf8Decode mode bs

/-- Encoding.decode_tokens_bytes: the byte sequence of each token, kept per token. -/
def decode_tokens_bytes (e : Encoding) : List Nat → Except PyError (List ByteSeq)
  | [] => .ok []
  | tok :: rest =>
    match decodeTokenBytes e tok with
    | none => .error (.unknownToken tok)
    | some g => (decode_tokens_bytes e rest).map (fun l => g :: l)

/-- Count of non-continuation bytes: sum(1 for c in token if not 0x80 <= c < 0xC0). -/
def nonContCount (bs : ByteSeq) : Nat := bs.countP (fun b => !(isContByte b))

/-- The offsets loop of Encoding.decode_with_offsets: for each token append
max(0, text_len - (first byte is a continuation byte)) and add the token's
non-continuation byte count to text_len; none models the IndexError on an
empty per-token byte sequence. -/
def offsetsGo : Nat → List ByteSeq → Option (List Nat)
  | _, [] => some []
  | textLen, tb :: rest =>
    match tb with
    | [] => none
    | b :: _ =>
      (offsetsGo (textLen + nonContCount tb) rest).map
        (fun offs => (textLen - (if isContByte b then 1 else 0)) :: offs)

/-- Encoding.decode_with_offsets: per-token byte sequences, the offsets loop,
then a strict UTF-8 decode of the joined bytes. -/
def decode_with_offsets (e : Encoding) (tokens : List Nat) :
    Except PyError (Text × List Nat) :=
  match decode_tokens_bytes e tokens with
  | .error err => .error err
  | .ok tbs =>
    match offsetsGo 0 tbs with
    | none => .error .indexError
    | some offs =>
      match utf8Decode tbs.flatten with
      | none => .error .malformedUtf8
      | some text => .ok (text, offs)

/-- The start indices range(0, n, k) for k > 0: 0, k, 2k, ... below n. -/
def chunkStarts (n k : Nat) : List Nat := (List.range ((n + k - 1) / k)).map (fun i => i * k)

/-- The token windows tokens[i:i+k] for i in range(0, len(tokens), k). -/
def tokenWindows (tokens : List Nat) (k : Nat) : List (List Nat) :=
  (chunkStarts tokens.length k).map (fun i => (tokens.drop i).take k)

/-- Sequence a fallible operation over a list, failing on the first error. -/
def exceptMapM (f : α → Except PyError β) : List α → Except PyError (List β)
  | [] => .ok []
  | a :: as =>
    match f a with
    | .error err => .error err
    | .ok b => (exceptMapM f as).map (fun l => b :: l)

/-- split_text_into_chunks: encode the text with the default special-token
policy, slice the token sequence into windows of max_tokens, decode each
window with errors="replace" (range(0, n, 0) raises ValueError). -/
def split_text_into_chunks (e : Encoding) (t : Text) (max_tokens : Nat) :
    Except PyError (List Text) :=
  match encode e t (.explicit []) .all with
  | .error err => .error err
  | .ok tokens =>
    if max_tokens = 0 then .error .valueError
    else exceptMapM (fun w => decode e w .replace) (tokenWindows tokens max_tokens)

/-- Well-formedness of the rank table as a dict with unique ranks: keys are
unique (it is a mapping) and ranks are unique (the spec's uniqueness). -/
def ranksWF (ranks : Ranks) : Prop :=
  (ranks.map Prod.fst).Nodup ∧ (ranks.map Prod.snd).Nodup

/-- No special-token literal occurs anywhere in the text. -/
def noSpecialLiteral (e : Encoding) (t : Text) : Prop :=
  ∀ s ∈ special_tokens_set e, ∀ n, n ≤ t.length → ¬ occursAt s t n

instance (s t : Text) (n : Nat) : Decidable (occursAt s t n) := by
  unfold occursAt
  infer_instance

instance (e : Encoding) (t : Text) : Decidable (noSpecialLiteral e t) := by
  unfold noSpecialLiteral
  infer_instance

/-- Whether an Except value is a success. -/
def isOkB : Except PyError α → Bool
  | .ok _ => true
  | .error _ => false

/-- A rank table with one token per byte (ranks 0..255). -/
def byteRanks : Ranks := (List.range 256).map (fun b => ([b], b))

/-- A concrete vocabulary for witnesses: byte-level ranks, one special token
with literal [60] and id 256, and the splitter that keeps the text whole. -/
def sampleEnc : Encoding :=
  { name := "sample"
    patSplit := fun t => [t]
    mergeable_ranks := byteRanks
    special_tokens := [([60], 256)]
    max_token_value := 256 }

/-- A vocabulary whose special-token table has an entry for the empty string. -/
def emptyKeyEnc : Encoding :=
  { name := "emptykey"
    patSplit := fun t => [t]
    mergeable_ranks := [([0], 0)]
    special_tokens := [([], 7)]
    max_token_value := 7 }

/-! Lemmas about the UTF-8 codec model. -/

theorem utf8EncodeChar_ne_nil (c : Nat) : utf8EncodeChar c ≠ [] := by
  unfold utf8EncodeChar
  split_ifs <;> simp

theorem isScalar_elim {c : Nat} (h : isScalar c = true) :
    c < 0x110000 ∧ ¬ (0xD800 ≤ c ∧ c < 0xE000) := by
  unfold isScalar at h
  exact of_decide_eq_true h

theorem utf8EncodeChar_lt (c : Nat) (h : isScalar c = true) :
    ∀ b ∈ utf8EncodeChar c, b < 256 := by
  have hc := isScalar_elim h
  intro b hb
  unfold utf8EncodeChar at hb
  split_ifs at hb with h1 h2 h3 <;> simp at hb <;> omega

theorem decodeOne_encodeChar (c : Nat) (h : isScalar c = true) (rest : ByteSeq) :
    decodeOne (utf8EncodeChar c ++ rest) = some (c, rest) := by
  have hc := isScalar_elim h
  unfold utf8EncodeChar
  by_cases h1 : c < 0x80
  · simp [h1, decodeOne]
  · by_cases h2 : c < 0x800
    · simp only [if_neg h1, if_pos h2, List.cons_append, List.nil_append]
      simp only [decodeOne, decodeTail2]
      rw [if_neg (by omega), if_neg (by omega), if_pos (by omega), if_pos (by omega)]
      have hv : (0xC0 + c / 64 - 0xC0) * 64 + (0x80 + c % 64 - 0x80) = c := by omega
      rw [hv]
    · by_cases h3 : c < 0x10000
      · simp only [if_neg h1, if_neg h2, if_pos h3, List.cons_append, List.nil_append]
        simp only [decodeOne, decodeTail3]
        rw [if_neg (by omega), if_neg (by omega), if_neg (by omega), if_pos (by omega),
          if_pos (by refine ⟨⟨by omega, by omega⟩, ⟨by omega, by omega⟩, by omega, by omega⟩)]
        have hv : (0xE0 + c / 4096 - 0xE0) * 4096 + (0x80 + c / 64 % 64 - 0x80) * 64 +
            (0x80 + c % 64 - 0x80) = c := by omega
        rw [hv]
      · simp only [if_neg h1, if_neg h2, if_neg h3, List.cons_append, List.nil_append]
        simp only [decodeOne, decodeTail4]
        rw [if_neg (by omega), if_neg (by omega), if_neg (by omega), if_neg (by omega),
          if_pos (by omega),
          if_pos (by refine ⟨⟨by omega, by omega⟩, ⟨by omega, by omega⟩, ⟨by omega, by omega⟩,
            by omega, by omega⟩)]
        have hv : (0xF0 + c / 262144 - 0xF0) * 262144 + (0x80 + c / 4096 % 64 - 0x80) * 4096 +
            (0x80 + c / 64 % 64 - 0x80) * 64 + (0x80 + c % 64 - 0x80) = c := by omega
        rw [hv]

theorem decodeOne_shrink {bs : ByteSeq} {c : Nat} {rest : ByteSeq}
    (h : decodeOne bs = some (c, rest)) : rest.length < bs.length := by
  match bs with
  | [] => simp [decodeOne] at h
  | b :: bs' =>
    simp only [decodeOne] at h
    split_ifs at h with h1 h2 h3 h4 h5
    · simp only [Option.some.injEq, Prod.mk.injEq] at h
      obtain ⟨rfl, rfl⟩ := h
      simp
    · match bs' with
      | [] => simp [decodeTail2] at h
      | b1 :: bs1 =>
        simp only [decodeTail2] at h
        split_ifs at h
        simp only [Option.some.injEq, Prod.mk.injEq] at h
        obtain ⟨rfl, rfl⟩ := h
        simp [List.length_cons]
        omega
    · match bs' with
      | [] => simp [decodeTail3] at h
      | [b1] => simp [decodeTail3] at h
      | b1 :: b2 :: bs2 =>
        simp only [decodeTail3] at h
        split_ifs at h
        simp only [Option.some.injEq, Prod.mk.injEq] at h
        obtain ⟨rfl, rfl⟩ := h
        simp [List.length_cons]
        omega
    · match bs' with
      | [] => simp [decodeTail4] at h
      | [b1] => simp [decodeTail4] at h
      | [b1, b2] => simp [decodeTail4] at h
      | b1 :: b2 :: b3 :: bs3 =>
        simp only [decodeTail4] at h
        split_ifs at h
        simp only [Option.some.injEq, Prod.mk.injEq] at h
        obtain ⟨rfl, rfl⟩ := h
        simp [List.length_cons]
        omega

theorem isContByte_false {b : Nat} (h : b < 0x80 ∨ 0xC0 ≤ b) : isContByte b = false := by
  simp only [isContByte, decide_eq_false_iff_not]
  omega

theorem isContByte_true {b : Nat} (h : 0x80 ≤ b ∧ b < 0xC0) : isContByte b = true := by
  simp only [isContByte, decide_eq_true_eq]
  omega

theorem nonContCount_cons (b : Nat) (bs : ByteSeq) :
    nonContCount (b :: bs) = (if isContByte b = true then 0 else 1) + nonContCount bs := by
  simp only [nonContCount, List.countP_cons]
  cases hb : isContByte b <;> simp [hb] <;> omega

theorem decodeOne_nonContCount {bs : ByteSeq} {c : Nat} {rest : ByteSeq}
    (h : decodeOne bs = some (c, rest)) :
    nonContCount bs = 1 + nonContCount rest := by
  match bs with
  | [] => simp [decodeOne] at h
  | b :: bs' =>
    simp only [decodeOne] at h
    split_ifs at h with h1 h2 h3 h4 h5
    · simp only [Option.some.injEq, Prod.mk.injEq] at h
      obtain ⟨rfl, rfl⟩ := h
      rw [nonContCount_cons, isContByte_false (by omega)]
      simp
    · match bs' with
      | [] => simp [decodeTail2] at h
      | b1 :: bs1 =>
        simp only [decodeTail2] at h
        split_ifs at h with hcont
        simp only [Option.some.injEq, Prod.mk.injEq] at h
        obtain ⟨rfl, rfl⟩ := h
        rw [nonContCount_cons, nonContCount_cons, isContByte_false (by omega),
          isContByte_true hcont]
        simp
    · match bs' with
      | [] => simp [decodeTail3] at h
      | [b1] => simp [decodeTail3] at h
      | b1 :: b2 :: bs2 =>
        simp only [decodeTail3] at h
        split_ifs at h with hcont
        simp only [Option.some.injEq, Prod.mk.injEq] at h
        obtain ⟨rfl, rfl⟩ := h
        rw [nonContCount_cons, nonContCount_cons, nonContCount_cons,
          isContByte_false (by omega), isContByte_true hcont.1, isContByte_true hcont.2.1]
        simp
    · match bs' with
      | [] => simp [decodeTail4] at h
      | [b1] => simp [decodeTail4] at h
      | [b1, b2] => simp [decodeTail4] at h
      | b1 :: b2 :: b3 :: bs3 =>
        simp only [decodeTail4] at h
        split_ifs at h with hcont
        simp only [Option.some.injEq, Prod.mk.injEq] at h
        obtain ⟨rfl, rfl⟩ := h
        rw [nonContCount_cons, nonContCount_cons, nonContCount_cons, nonContCount_cons,
          isContByte_false (by omega), isContByte_true hcont.1, isContByte_true hcont.2.1,
          isContByte_true hcont.2.2.1]
        simp

theorem utf8DecodeGo_succ_none {fuel b : Nat} {bs : ByteSeq}
    (hd : decodeOne (b :: bs) = none) :
    utf8DecodeGo (fuel + 1) (b :: bs) = none := by
  simp [utf8DecodeGo, hd]

theorem utf8DecodeGo_succ_some {fuel b c : Nat} {bs rest : ByteSeq}
    (hd : decodeOne (b :: bs) = some (c, rest)) :
    utf8DecodeGo (fuel + 1) (b :: bs) = (utf8DecodeGo fuel rest).map (fun t => c :: t) := by
  simp [utf8DecodeGo, hd]

theorem utf8DecodeGo_length : ∀ (fuel : Nat) (bs : ByteSeq) (t : Text),
    utf8DecodeGo fuel bs = some t → t.length = nonContCount bs := by
  intro fuel
  induction fuel with
  | zero =>
    intro bs t h
    match bs with
    | [] =>
      simp [utf8DecodeGo] at h
      subst h
      simp [nonContCount]
    | b :: bs' => simp [utf8DecodeGo] at h
  | succ fuel ih =>
    intro bs t h
    match bs with
    | [] =>
      simp [utf8DecodeGo] at h
      subst h
      simp [nonContCount]
    | b :: bs' =>
      match hd : decodeOne (b :: bs') with
      | none => rw [utf8DecodeGo_succ_none hd] at h; simp at h
      | some (c, rest) =>
        rw [utf8DecodeGo_succ_some hd] at h
        rw [Option.map_eq_some'] at h
        obtain ⟨t', ht', rfl⟩ := h
        have := ih rest t' ht'
        have := decodeOne_nonContCount hd
        simp only [List.length_cons]
        omega

theorem utf8DecodeGo_mono : ∀ (fuel1 fuel2 : Nat) (bs : ByteSeq),
    bs.length ≤ fuel1 → bs.length ≤ fuel2 →
    utf8DecodeGo fuel1 bs = utf8DecodeGo fuel2 bs := by
  intro fuel1
  induction fuel1 with
  | zero =>
    intro fuel2 bs h1 h2
    match bs with
    | [] =>
      match fuel2 with
      | 0 => rfl
      | _ + 1 => simp [utf8DecodeGo]
    | b :: bs' => simp at h1
  | succ fuel ih =>
    intro fuel2 bs h1 h2
    match bs with
    | [] =>
      match fuel2 with
      | 0 => simp [utf8DecodeGo]
      | _ + 1 => rfl
    | b :: bs' =>
      match fuel2 with
      | 0 => simp at h2
      | f2 + 1 =>
        match hd : decodeOne (b :: bs') with
        | none => rw [utf8DecodeGo_succ_none hd, utf8DecodeGo_succ_none hd]
        | some (c, rest) =>
          have hr := decodeOne_shrink hd
          simp only [List.length_cons] at h1 h2 hr
          rw [utf8DecodeGo_succ_some hd, utf8DecodeGo_succ_some hd,
            ih f2 rest (by omega) (by omega)]

theorem utf8DecodeGo_encode : ∀ (t : Text) (fuel : Nat),
    (∀ c ∈ t, isScalar c = true) → (utf8Bytes t).length ≤ fuel →
    utf8DecodeGo fuel (utf8Bytes t) = some t := by
  intro t
  induction t with
  | nil =>
    intro fuel _ _
    match fuel with
    | 0 => rfl
    | _ + 1 => rfl
  | cons c cs ih =>
    intro fuel hs hf
    have hcs : utf8Bytes (c :: cs) = utf8EncodeChar c ++ utf8Bytes cs := by
      simp [utf8Bytes]
    rw [hcs] at hf ⊢
    have hne := utf8EncodeChar_ne_nil c
    match he : utf8EncodeChar c, hne with
    | eb :: ebs, _ =>
      rw [he] at hf
      match fuel with
      | 0 =>
        simp [List.length_append, List.length_cons] at hf
      | fuel + 1 =>
        have hdec : decodeOne (eb :: (ebs ++ utf8Bytes cs)) = some (c, utf8Bytes cs) := by
          have := decodeOne_encodeChar c (hs c (by simp)) (utf8Bytes cs)
          rw [he] at this
          simpa using this
        rw [List.cons_append, utf8DecodeGo_succ_some hdec]
        rw [ih fuel (fun x hx => hs x (by simp [hx]))
          (by simp only [List.length_append, List.length_cons] at hf ⊢; omega)]
        rfl

theorem utf8Decode_utf8Bytes (t : Text) (hs : ∀ c ∈ t, isScalar c = true) :
    utf8Decode (utf8Bytes t) = some t :=
  utf8DecodeGo_encode t (utf8Bytes t).length hs le_rfl

theorem pyDecodeReplaceGo_of_strict : ∀ (fuel : Nat) (bs : ByteSeq) (t : Text),
    utf8DecodeGo fuel bs = some t → pyDecodeReplaceGo fuel bs = t := by
  intro fuel
  induction fuel with
  | zero =>
    intro bs t h
    match bs with
    | [] =>
      simp [utf8DecodeGo] at h
      subst h
      rfl
    | b :: bs' => simp [utf8DecodeGo] at h
  | succ fuel ih =>
    intro bs t h
    match bs with
    | [] =>
      simp [utf8DecodeGo] at h
      subst h
      rfl
    | b :: bs' =>
      simp only [pyDecodeReplaceGo]
      match hd : decodeOne (b :: bs') with
      | none => rw [utf8DecodeGo_succ_none hd] at h; simp at h
      | some (c, rest) =>
        rw [utf8DecodeGo_succ_some hd] at h
        rw [Option.map_eq_some'] at h
        obtain ⟨t', ht', rfl⟩ := h
        show c :: pyDecodeReplaceGo fuel rest = c :: t'
        rw [ih rest t' ht']

theorem pyUtf8Decode_replace_of_valid (bs : ByteSeq) (t : Text)
    (h : utf8Decode bs = some t) : pyUtf8Decode .replace bs = .ok t := by
  simp only [pyUtf8Decode]
  rw [pyDecodeReplaceGo_of_strict bs.length bs t h]

/-! Lemmas about the surrogate-merging fallback. -/

theorem scalar_of_not_sur {c : Nat} (hlt : c < 0x110000) (hh : isHighSur c = false)
    (hl : isLowSur c = false) : isScalar c = true := by
  unfold isHighSur at hh
  unfold isLowSur at hl
  unfold isScalar
  rw [decide_eq_true_eq]
  have h1 := of_decide_eq_false hh
  have h2 := of_decide_eq_false hl
  omega

theorem msur_one (c : Nat) :
    mergeSurrogates [c] =
      (if isHighSur c then [0xFFFD] else if isLowSur c then [0xFFFD] else [c]) := by
  rw [mergeSurrogates]

theorem msur_pair {c d : Nat} (rest2 : List Nat) (hh : isHighSur c = true)
    (hl : isLowSur d = true) :
    mergeSurrogates (c :: d :: rest2) =
      (0x10000 + (c - 0xD800) * 0x400 + (d - 0xDC00)) :: mergeSurrogates rest2 := by
  rw [mergeSurrogates, if_pos hh, if_pos hl]

theorem msur_high_nolow {c d : Nat} (rest2 : List Nat) (hh : isHighSur c = true)
    (hl : ¬ isLowSur d = true) :
    mergeSurrogates (c :: d :: rest2) = 0xFFFD :: mergeSurrogates (d :: rest2) := by
  rw [mergeSurrogates, if_pos hh, if_neg hl]

theorem msur_low {c d : Nat} (rest2 : List Nat) (hh : ¬ isHighSur c = true)
    (hl : isLowSur c = true) :
    mergeSurrogates (c :: d :: rest2) = 0xFFFD :: mergeSurrogates (d :: rest2) := by
  rw [mergeSurrogates, if_neg hh, if_pos hl]

theorem msur_other {c d : Nat} (rest2 : List Nat) (hh : ¬ isHighSur c = true)
    (hl : ¬ isLowSur c = true) :
    mergeSurrogates (c :: d :: rest2) = c :: mergeSurrogates (d :: rest2) := by
  rw [mergeSurrogates, if_neg hh, if_neg hl]

theorem mergeSurrogates_scalar : ∀ t : Text, (∀ c ∈ t, c < 0x110000) →
    ∀ c ∈ mergeSurrogates t, isScalar c = true := by
  intro t
  induction t using mergeSurrogates.induct with
  | case1 =>
    intro _ c hc
    rw [show mergeSurrogates [] = [] from rfl] at hc
    simp at hc
  | case2 c hh =>
    intro _ x hx
    rw [msur_one, if_pos hh, List.mem_singleton] at hx
    subst hx
    decide
  | case3 c hh hl =>
    intro _ x hx
    rw [msur_one, if_neg hh, if_pos hl, List.mem_singleton] at hx
    subst hx
    decide
  | case4 c hh hl =>
    intro hv x hx
    rw [msur_one, if_neg hh, if_neg hl, List.mem_singleton] at hx
    subst hx
    exact scalar_of_not_sur (hv x (by simp)) (by simpa using hh) (by simpa using hl)
  | case5 c d rest2 hh hl ih =>
    intro hv x hx
    rw [msur_pair rest2 hh hl] at hx
    rw [List.mem_cons] at hx
    cases hx with
    | inl h =>
      rw [h]
      unfold isHighSur at hh
      unfold isLowSur at hl
      have h1 := of_decide_eq_true hh
      have h2 := of_decide_eq_true hl
      unfold isScalar
      rw [decide_eq_true_eq]
      omega
    | inr h => exact ih (fun c hc => hv c (by simp [hc])) x h
  | case6 c d rest2 hh hl ih =>
    intro hv x hx
    rw [msur_high_nolow rest2 hh hl] at hx
    rcases List.mem_cons.mp hx with rfl | hx
    · decide
    · exact ih (fun c hc => hv c (by simp at hc ⊢; tauto)) x hx
  | case7 c d rest2 hh hl ih =>
    intro hv x hx
    rw [msur_low rest2 hh hl] at hx
    rcases List.mem_cons.mp hx with rfl | hx
    · decide
    · exact ih (fun c hc => hv c (by simp at hc ⊢; tauto)) x hx
  | case8 c d rest2 hh hl ih =>
    intro hv x hx
    rw [msur_other rest2 hh hl] at hx
    rcases List.mem_cons.mp hx with rfl | hx
    · exact scalar_of_not_sur (hv x (by simp)) (by simpa using hh) (by simpa using hl)
    · exact ih (fun c hc => hv c (by simp at hc ⊢; tauto)) x hx

theorem mergeSurrogates_all_scalar (t : Text) (hv : ∀ c ∈ t, c < 0x110000) :
    (mergeSurrogates t).all isScalar = true := by
  rw [List.all_eq_true]
  exact mergeSurrogates_scalar t hv

/-! Lemmas about the byte-pair merge engine model. -/

theorem foldl_pick_mem : ∀ (l : List (Nat × Nat)) (acc : Option (Nat × Nat)) (c : Nat × Nat),
    l.foldl (fun best c =>
      match best with
      | none => some c
      | some b => if c.2 < b.2 then some c else best) acc = some c →
    c ∈ l ∨ acc = some c := by
  intro l
  induction l with
  | nil =>
    intro acc c h
    exact Or.inr h
  | cons a l ih =>
    intro acc c h
    rcases ih _ c h with hm | hacc
    · exact Or.inl (List.mem_cons_of_mem a hm)
    · match acc with
      | none =>
        simp only [Option.some.injEq] at hacc
        exact Or.inl (by simp [hacc])
      | some b =>
        simp only at hacc
        split_ifs at hacc with hlt
        · simp only [Option.some.injEq] at hacc
          exact Or.inl (by simp [hacc])
        · exact Or.inr hacc

theorem mergeCandidates_mem {ranks : Ranks} {gs : List ByteSeq} {c : Nat × Nat}
    (h : c ∈ mergeCandidates ranks gs) :
    c.1 + 1 < gs.length ∧
      lookupRank ranks (gs.getD c.1 [] ++ gs.getD (c.1 + 1) []) = some c.2 := by
  unfold mergeCandidates at h
  rw [List.mem_filterMap] at h
  obtain ⟨i, hi, hmap⟩ := h
  rw [List.mem_range] at hi
  rw [Option.map_eq_some'] at hmap
  obtain ⟨r, hr, hc⟩ := hmap
  subst hc
  exact ⟨by omega, hr⟩

theorem bestMerge_spec {ranks : Ranks} {gs : List ByteSeq} {i : Nat}
    (h : bestMerge ranks gs = some i) :
    i + 1 < gs.length ∧
      (lookupRank ranks (gs.getD i [] ++ gs.getD (i + 1) [])).isSome = true := by
  unfold bestMerge at h
  rw [Option.map_eq_some'] at h
  obtain ⟨c, hc, hfst⟩ := h
  rcases foldl_pick_mem _ none c hc with hm | hax
  · obtain ⟨h1, h2⟩ := mergeCandidates_mem hm
    subst hfst
    exact ⟨h1, by rw [h2]; rfl⟩
  · simp at hax

theorem getD_append_flatten {gs : List ByteSeq} {i : Nat} (h : i + 1 < gs.length) :
    gs.take i ++ gs.getD i [] :: gs.getD (i + 1) [] :: gs.drop (i + 2) = gs := by
  have hi : i < gs.length := by omega
  rw [List.getD_eq_getElem gs [] hi, List.getD_eq_getElem gs [] h]
  rw [← List.drop_eq_getElem_cons h]
  have : gs.drop (i + 1) = gs[i + 1] :: gs.drop (i + 2) := List.drop_eq_getElem_cons h
  rw [← List.drop_eq_getElem_cons hi]
  exact List.take_append_drop i gs

theorem mergeAt_flatten {gs : List ByteSeq} {i : Nat} (h : i + 1 < gs.length) :
    (mergeAt gs i).flatten = gs.flatten := by
  conv_rhs => rw [← getD_append_flatten h]
  unfold mergeAt
  simp [List.flatten_append, List.append_assoc]

theorem mergeAt_mem {gs : List ByteSeq} {i : Nat} {g : ByteSeq}
    (hg : g ∈ mergeAt gs i) :
    g ∈ gs ∨ g = gs.getD i [] ++ gs.getD (i + 1) [] := by
  unfold mergeAt at hg
  rcases List.mem_append.mp hg with hg1 | hg2
  · rcases List.mem_append.mp hg1 with hg3 | hg4
    · exact Or.inl (List.mem_of_mem_take hg3)
    · rw [List.mem_singleton] at hg4
      exact Or.inr hg4
  · exact Or.inl (List.mem_of_mem_drop hg2)

theorem bpeLoop_flatten (ranks : Ranks) : ∀ (fuel : Nat) (gs : List ByteSeq),
    (bpeLoop ranks fuel gs).flatten = gs.flatten := by
  intro fuel
  induction fuel with
  | zero => intro gs; rfl
  | succ fuel ih =>
    intro gs
    unfold bpeLoop
    match hb : bestMerge ranks gs with
    | none => rfl
    | some i =>
      rw [ih (mergeAt gs i), mergeAt_flatten (bestMerge_spec hb).1]

theorem bpeLoop_in_table (ranks : Ranks) : ∀ (fuel : Nat) (gs : List ByteSeq),
    (∀ g ∈ gs, (lookupRank ranks g).isSome = true) →
    ∀ g ∈ bpeLoop ranks fuel gs, (lookupRank ranks g).isSome = true := by
  intro fuel
  induction fuel with
  | zero => intro gs h; exact h
  | succ fuel ih =>
    intro gs h
    unfold bpeLoop
    match hb : bestMerge ranks gs with
    | none => exact h
    | some i =>
      refine ih (mergeAt gs i) ?_
      intro g hg
      rcases mergeAt_mem hg with hm | rfl
      · exact h g hm
      · exact (bestMerge_spec hb).2

theorem flatten_map_singleton (l : ByteSeq) : (l.map (fun b => [b])).flatten = l := by
  induction l with
  | nil => rfl
  | cons b l ih => simp [ih]

theorem bytePairMerge_flatten (ranks : Ranks) (piece : ByteSeq) :
    (bytePairMerge ranks piece).flatten = piece := by
  unfold bytePairMerge
  rw [bpeLoop_flatten, flatten_map_singleton]

theorem bytePairMerge_in_table (ranks : Ranks) (piece : ByteSeq)
    (hcov : ∀ b ∈ piece, (lookupRank ranks [b]).isSome = true) :
    ∀ g ∈ bytePairMerge ranks piece, (lookupRank ranks g).isSome = true := by
  unfold bytePairMerge
  refine bpeLoop_in_table ranks piece.length _ ?_
  intro g hg
  rw [List.mem_map] at hg
  obtain ⟨b, hb, rfl⟩ := hg
  exact hcov b hb

/-! Lemmas about rank lookup and decode. -/

theorem lookupRank_mem {ranks : Ranks} {g : ByteSeq} {r : Nat}
    (h : lookupRank ranks g = some r) : (g, r) ∈ ranks := by
  unfold lookupRank at h
  rw [Option.map_eq_some'] at h
  obtain ⟨p, hp, hsnd⟩ := h
  have hmem := List.mem_of_find?_eq_some hp
  have hpred := List.find?_some hp
  rw [decide_eq_true_eq] at hpred
  have : p = (g, r) := by
    cases p
    simp only at hpred hsnd
    rw [hpred, hsnd]
  rw [this] at hmem
  exact hmem

theorem find?_value_unique : ∀ (l : List (ByteSeq × Nat)) (g : ByteSeq) (r : Nat),
    (l.map Prod.snd).Nodup → (g, r) ∈ l →
    l.find? (fun p => decide (p.2 = r)) = some (g, r) := by
  intro l
  induction l with
  | nil =>
    intro g r _ hm
    simp at hm
  | cons q tl ih =>
    intro g r hnd hm
    rw [List.map_cons, List.nodup_cons] at hnd
    by_cases hq : q.2 = r
    · have : q = (g, r) := by
        rcases List.mem_cons.mp hm with h | h
        · exact h.symm
        · exfalso
          apply hnd.1
          rw [hq]
          exact List.mem_map.mpr ⟨(g, r), h, rfl⟩
      rw [List.find?_cons_of_pos _ (by rw [decide_eq_true_eq]; exact hq)]
      rw [this]
    · rw [List.find?_cons_of_neg _ (by rw [decide_eq_true_eq] at *; exact hq)]
      refine ih g r hnd.2 ?_
      rcases List.mem_cons.mp hm with h | h
      · exfalso
        apply hq
        rw [← h]
      · exact h

theorem reverseLookup_of_lookup {ranks : Ranks} (hwf : ranksWF ranks) {g : ByteSeq}
    {r : Nat} (h : lookupRank ranks g = some r) : reverseLookup ranks r = some g := by
  have hmem := lookupRank_mem h
  unfold reverseLookup
  rw [find?_value_unique ranks g r hwf.2 hmem]
  rfl

theorem decodeTokenBytes_of_lookup {e : Encoding} (hwf : ranksWF e.mergeable_ranks)
    {g : ByteSeq} {r : Nat} (h : lookupRank e.mergeable_ranks g = some r) :
    decodeTokenBytes e r = some g := by
  unfold decodeTokenBytes
  rw [reverseLookup_of_lookup hwf h]

theorem decode_bytes_append {e : Encoding} {a b : List Nat} {u v : ByteSeq}
    (ha : decode_bytes e a = .ok u) (hb : decode_bytes e b = .ok v) :
    decode_bytes e (a ++ b) = .ok (u ++ v) := by
  induction a generalizing u with
  | nil =>
    simp only [decode_bytes] at ha
    cases ha
    simpa using hb
  | cons tok rest ih =>
    simp only [decode_bytes] at ha ⊢
    match hd : decodeTokenBytes e tok with
    | none => rw [hd] at ha; simp at ha
    | some g =>
      rw [hd] at ha
      match hr : decode_bytes e rest with
      | .error err => rw [hr] at ha; simp [Except.map] at ha
      | .ok w =>
        rw [hr] at ha
        simp only [Except.map] at ha
        cases ha
        show Except.map (fun bs => g ++ bs) (decode_bytes e (rest ++ b)) = .ok (g ++ w ++ v)
        rw [ih hr]
        simp [Except.map, List.append_assoc]

theorem decode_bytes_groups {e : Encoding} (hwf : ranksWF e.mergeable_ranks) :
    ∀ gs : List ByteSeq, (∀ g ∈ gs, (lookupRank e.mergeable_ranks g).isSome = true) →
    decode_bytes e (gs.map (fun g => (lookupRank e.mergeable_ranks g).getD 0)) =
      .ok gs.flatten := by
  intro gs
  induction gs with
  | nil => intro _; rfl
  | cons g tl ih =>
    intro hall
    have hg := hall g (by simp)
    rw [Option.isSome_iff_exists] at hg
    obtain ⟨r, hr⟩ := hg
    simp only [List.map_cons, decode_bytes]
    rw [hr]
    simp only [Option.getD_some]
    rw [decodeTokenBytes_of_lookup hwf hr]
    rw [ih (fun g hg => hall g (by simp [hg]))]
    simp [Except.map]

theorem decode_bytes_encodePiece {e : Encoding} (hwf : ranksWF e.mergeable_ranks)
    (piece : ByteSeq)
    (hcov : ∀ b ∈ piece, (lookupRank e.mergeable_ranks [b]).isSome = true) :
    decode_bytes e (encodePiece e.mergeable_ranks piece) = .ok piece := by
  unfold encodePiece
  rw [decode_bytes_groups hwf _ (bytePairMerge_in_table e.mergeable_ranks piece hcov)]
  rw [bytePairMerge_flatten]

theorem utf8Bytes_append (a b : Text) : utf8Bytes (a ++ b) = utf8Bytes a ++ utf8Bytes b := by
  simp [utf8Bytes]

theorem utf8Bytes_lt (p : Text) (hs : ∀ c ∈ p, isScalar c = true) :
    ∀ b ∈ utf8Bytes p, b < 256 := by
  intro b hb
  unfold utf8Bytes at hb
  rw [List.mem_flatten] at hb
  obtain ⟨l, hl, hbl⟩ := hb
  rw [List.mem_map] at hl
  obtain ⟨c, hc, rfl⟩ := hl
  exact utf8EncodeChar_lt c (hs c hc) b hbl

theorem decode_bytes_pieces {e : Encoding} (hwf : ranksWF e.mergeable_ranks)
    (hcov : ∀ b, b < 256 → (lookupRank e.mergeable_ranks [b]).isSome = true) :
    ∀ ps : List Text, (∀ p ∈ ps, ∀ c ∈ p, isScalar c = true) →
    decode_bytes e ((ps.map (fun p => encodePiece e.mergeable_ranks (utf8Bytes p))).flatten) =
      .ok ((ps.map utf8Bytes).flatten) := by
  intro ps
  induction ps with
  | nil => intro _; rfl
  | cons p tl ih =>
    intro hall
    simp only [List.map_cons, List.flatten_cons]
    refine decode_bytes_append ?_ (ih (fun q hq => hall q (by simp [hq])))
    refine decode_bytes_encodePiece hwf _ ?_
    intro b hb
    exact hcov b (utf8Bytes_lt p (hall p (by simp)) b hb)

theorem flatten_map_utf8Bytes (ps : List Text) :
    (ps.map utf8Bytes).flatten = utf8Bytes ps.flatten := by
  induction ps with
  | nil => rfl
  | cons p tl ih => simp [utf8Bytes_append, ih]

theorem decode_bytes_coreOrdinary {e : Encoding} (hwf : ranksWF e.mergeable_ranks)
    (hcov : ∀ b, b < 256 → (lookupRank e.mergeable_ranks [b]).isSome = true)
    (hsplit : ∀ u : Text, (e.patSplit u).flatten = u)
    (t : Text) (hs : ∀ c ∈ t, isScalar c = true) :
    decode_bytes e (coreOrdinaryTokens e t) = .ok (utf8Bytes t) := by
  unfold coreOrdinaryTokens
  have hp : ∀ p ∈ e.patSplit t, ∀ c ∈ p, isScalar c = true := by
    intro p hp c hc
    refine hs c ?_
    rw [← hsplit t]
    exact List.mem_flatten.mpr ⟨p, hp, hc⟩
  rw [decode_bytes_pieces hwf hcov (e.patSplit t) hp]
  rw [flatten_map_utf8Bytes, hsplit t]

theorem decode_coreOrdinary {e : Encoding} (hwf : ranksWF e.mergeable_ranks)
    (hcov : ∀ b, b < 256 → (lookupRank e.mergeable_ranks [b]).isSome = true)
    (hsplit : ∀ u : Text, (e.patSplit u).flatten = u)
    (t : Text) (hs : ∀ c ∈ t, isScalar c = true) :
    decode e (coreOrdinaryTokens e t) .replace = .ok t := by
  unfold decode
  rw [decode_bytes_coreOrdinary hwf hcov hsplit t hs]
  exact pyUtf8Decode_replace_of_valid _ t (utf8Decode_utf8Bytes t hs)

/-! Lemmas about the concrete byte-level vocabulary. -/

theorem find?_singleton_table : ∀ (l : List Nat) (b : Nat), b ∈ l →
    (l.map (fun x => (([x] : ByteSeq), x))).find? (fun p => decide (p.1 = [b])) =
      some ([b], b) := by
  intro l
  induction l with
  | nil =>
    intro b hb
    simp at hb
  | cons x tl ih =>
    intro b hb
    by_cases hx : x = b
    · subst hx
      rw [List.map_cons, List.find?_cons_of_pos _ (by simp)]
    · rw [List.map_cons, List.find?_cons_of_neg _ (by simp [hx])]
      refine ih b ?_
      rcases List.mem_cons.mp hb with h | h
      · exact absurd h.symm hx
      · exact h

theorem lookupRank_byteRanks {b : Nat} (hb : b < 256) :
    lookupRank byteRanks [b] = some b := by
  unfold lookupRank byteRanks
  rw [find?_singleton_table (List.range 256) b (List.mem_range.mpr hb)]
  rfl

theorem byteRanks_wf : ranksWF byteRanks := by
  constructor
  · unfold byteRanks
    rw [List.map_map]
    exact (List.nodup_range 256).map (fun a b h => by simpa using h)
  · unfold byteRanks
    rw [List.map_map]
    have he : (Prod.snd ∘ fun b : Nat => (([b] : ByteSeq), b)) = id := rfl
    rw [he, List.map_id]
    exact List.nodup_range 256

theorem sampleEnc_wf : ranksWF sampleEnc.mergeable_ranks := byteRanks_wf

theorem sampleEnc_cov : ∀ b, b < 256 →
    (lookupRank sampleEnc.mergeable_ranks [b]).isSome = true := by
  intro b hb
  show (lookupRank byteRanks [b]).isSome = true
  rw [lookupRank_byteRanks hb]
  rfl

theorem sampleEnc_split : ∀ u : Text, (sampleEnc.patSplit u).flatten = u := by
  intro u
  simp [sampleEnc]

/-! Claim theorems. -/

theorem encode_ordinary_scalar (e : Encoding) (t : Text) (hs : t.all isScalar = true) :
    encode_ordinary e t = .ok (coreOrdinaryTokens e t) := by
  unfold encode_ordinary coreEncodeOrdinary
  rw [if_pos hs]

/-- C1, amended: for a well-formed vocabulary (unique keys and ranks, every
single byte in the table, pattern pieces concatenating back to the text), and
for every text that consists of Unicode scalar values (no unpaired surrogate
code points) and contains no special-token literal,
decode(encode_ordinary(text)) returns exactly the original text.  The
amendment adds the no-surrogate condition: the source's lossy surrogate
fallback breaks the round trip on texts with unpaired surrogates. -/
theorem encode_ordinary_round_trip (e : Encoding)
    (hwf : ranksWF e.mergeable_ranks)
    (hcov : ∀ b, b < 256 → (lookupRank e.mergeable_ranks [b]).isSome = true)
    (hsplit : ∀ u : Text, (e.patSplit u).flatten = u)
    (t : Text) (hscal : t.all isScalar = true) (hns : noSpecialLiteral e t) :
    ∃ toks, encode_ordinary e t = .ok toks ∧ decode e toks .replace = .ok t := by
  have hs : ∀ c ∈ t, isScalar c = true := List.all_eq_true.mp hscal
  exact ⟨coreOrdinaryTokens e t, encode_ordinary_scalar e t hscal,
    decode_coreOrdinary hwf hcov hsplit t hs⟩

/-- Witness for C1: the round trip on the concrete text "ab" over the
byte-level vocabulary. -/
theorem encode_ordinary_round_trip_witness :
    ∃ toks, encode_ordinary sampleEnc [97, 98] = .ok toks ∧
      decode sampleEnc toks .replace = .ok [97, 98] :=
  encode_ordinary_round_trip sampleEnc sampleEnc_wf sampleEnc_cov sampleEnc_split
    [97, 98] (by decide) (by decide)

/-- Counterexample to C1 as stated: the claim quantifies over every text with
no special-token literals, but on the one-code-point text [0xD800] (an
unpaired surrogate, a legal Python string) encode_ordinary falls back to the
lossy re-encoding, so decoding returns [0xFFFD], not the original text. -/
theorem encode_ordinary_round_trip_counterexample :
    ¬ (∀ (e : Encoding), ranksWF e.mergeable_ranks →
        (∀ b, b < 256 → (lookupRank e.mergeable_ranks [b]).isSome = true) →
        (∀ u : Text, (e.patSplit u).flatten = u) →
        ∀ t : Text, noSpecialLiteral e t →
        ∃ toks, encode_ordinary e t = .ok toks ∧ decode e toks .replace = .ok t) := by
  intro h
  obtain ⟨toks, henc, hdec⟩ := h sampleEnc sampleEnc_wf sampleEnc_cov sampleEnc_split
    [0xD800] (by decide)
  have he : encode_ordinary sampleEnc [0xD800] = .ok [239, 191, 189] := rfl
  have htoks : toks = [239, 191, 189] := by
    have := henc.symm.trans he
    exact (Except.ok.inj this)
  subst htoks
  have hd : decode sampleEnc [239, 191, 189] .replace = .ok [0xFFFD] := rfl
  have := hd.symm.trans hdec
  have hlist := Except.ok.inj this
  simp at hlist

theorem coreEncodeOrdinary_merge (e : Encoding) (t : Text)
    (hval : ∀ c ∈ t, c < 0x110000) :
    coreEncodeOrdinary e (mergeSurrogates t) =
      .ok (coreOrdinaryTokens e (mergeSurrogates t)) := by
  unfold coreEncodeOrdinary
  rw [if_pos (mergeSurrogates_all_scalar t hval)]

theorem coreEncode_merge (e : Encoding) (allowed : List Text) (t : Text)
    (hval : ∀ c ∈ t, c < 0x110000) :
    coreEncode e allowed (mergeSurrogates t) =
      .ok (coreSpecialTokens e allowed (mergeSurrogates t)) := by
  unfold coreEncode
  rw [if_pos (mergeSurrogates_all_scalar t hval)]

/-- C5: for every Python string (code points below 0x110000) containing
unpaired surrogates (so it is not all scalar values and UTF-8 encoding fails),
encode_ordinary recovers by the lossy re-encoding and a single retry, which
always succeeds; encode behaves the same once its disallowed scan passes
(its UnicodeEncodeError path also retries exactly once and succeeds). -/
theorem surrogate_fallback (e : Encoding) (t : Text)
    (hval : ∀ c ∈ t, c < 0x110000) (hsur : ¬ t.all isScalar = true) :
    encode_ordinary e t = .ok (coreOrdinaryTokens e (mergeSurrogates t)) ∧
    ∀ a d : SpecialArg,
      findDisallowed (resolveDisallowed e a d) t = none →
      encode e t a d =
        .ok (coreSpecialTokens e (resolveAllowed e a) (mergeSurrogates t)) := by
  constructor
  · unfold encode_ordinary
    rw [show coreEncodeOrdinary e t = .error .unicodeEncodeError from by
      unfold coreEncodeOrdinary; rw [if_neg hsur]]
    exact coreEncodeOrdinary_merge e t hval
  · intro a d hnone
    unfold encode
    have hsel : (if resolveDisallowed e a d ≠ [] then
        findDisallowed (resolveDisallowed e a d) t else none) = none := by
      split_ifs
      · exact hnone
      · rfl
    rw [hsel]
    rw [show coreEncode e (resolveAllowed e a) t = .error .unicodeEncodeError from by
      unfold coreEncode; rw [if_neg hsur]]
    exact coreEncode_merge e (resolveAllowed e a) t hval

/-- Witness for C5: the unpaired-surrogate text [0xD800] is encoded by both
entry points through the lossy fallback without failing. -/
theorem surrogate_fallback_witness :
    encode_ordinary sampleEnc [0xD800] =
      .ok (coreOrdinaryTokens sampleEnc (mergeSurrogates [0xD800])) ∧
    encode sampleEnc [0xD800] (.explicit []) .all =
      .ok (coreSpecialTokens sampleEnc (resolveAllowed sampleEnc (.explicit []))
        (mergeSurrogates [0xD800])) :=
  ⟨(surrogate_fallback sampleEnc [0xD800] (by decide) (by decide)).1,
   (surrogate_fallback sampleEnc [0xD800] (by decide) (by decide)).2
     (.explicit []) .all rfl⟩

theorem encode_resolved (e : Encoding) (t : Text) (a d : SpecialArg) :
    encode e t (.explicit (resolveAllowed e a)) (.explicit (resolveDisallowed e a d)) =
      encode e t a d := rfl

/-- C4: encode_batch resolves the special-token arguments once and maps encode
over the texts in input order (the worker pool is modelled by its documented
order-preserving contract), so for every index below the length,
encode_batch(texts)[i] equals encode(texts[i]) with the same
allowed/disallowed arguments, for any thread count. -/
theorem encode_batch_eq_encode (e : Encoding) (texts : List Text) (n : Nat)
    (a d : SpecialArg) (i : Nat) (hi : i < texts.length) :
    (encode_batch e texts n a d).length = texts.length ∧
    (encode_batch e texts n a d).getD i (.ok []) = encode e (texts.getD i []) a d := by
  constructor
  · simp [encode_batch]
  · unfold encode_batch
    rw [List.getD_eq_getElem _ _ (by simpa using hi), List.getElem_map,
      List.getD_eq_getElem _ _ hi]
    exact encode_resolved e texts[i] a d

/-- Witness for C4: batch encoding of two texts agrees with single encode at
index 1, including when that element fails the disallowed scan. -/
theorem encode_batch_eq_encode_witness :
    (encode_batch sampleEnc [[97], [60]] 8 (.explicit []) .all).getD 1 (.ok []) =
      encode sampleEnc [60] (.explicit []) .all :=
  (encode_batch_eq_encode sampleEnc [[97], [60]] 8 (.explicit []) .all 1 (by decide)).2

/-- C6: encode_with_unstable performs exactly the disallowed-special-token
scan of encode: for every text and argument pair it fails with
DisallowedSpecialToken naming a literal s exactly when encode does
(the non-scan part of either function never produces this error). -/
theorem encode_with_unstable_scan_eq (e : Encoding) (t : Text) (a d : SpecialArg)
    (s : Text) :
    encode_with_unstable e t a d = .error (.disallowedSpecialToken s) ↔
    encode e t a d = .error (.disallowedSpecialToken s) := by
  unfold encode encode_with_unstable
  cases hsel : (if resolveDisallowed e a d ≠ [] then
      findDisallowed (resolveDisallowed e a d) t else none) with
  | some s' =>
    show Except.error (PyError.disallowedSpecialToken s') =
        Except.error (PyError.disallowedSpecialToken s) ↔
      Except.error (PyError.disallowedSpecialToken s') =
        Except.error (PyError.disallowedSpecialToken s)
    constructor <;> intro h <;> exact congrArg Except.error (Except.error.inj h)
  | none =>
    constructor
    · intro h
      exfalso
      by_cases hts : t.all isScalar = true
      · rw [if_pos hts] at h
        simp at h
      · rw [if_neg hts] at h
        simp at h
    · intro h
      exfalso
      by_cases hts : t.all isScalar = true
      · rw [show coreEncode e (resolveAllowed e a) t =
            .ok (coreSpecialTokens e (resolveAllowed e a) t) from by
          unfold coreEncode; rw [if_pos hts]] at h
        simp at h
      · rw [show coreEncode e (resolveAllowed e a) t = .error .unicodeEncodeError from by
          unfold coreEncode; rw [if_neg hts]] at h
        unfold coreEncode at h
        split_ifs at h <;> simp at h

/-! Lemmas about the chunk splitter. -/

theorem chunkStarts_zero (k : Nat) (hk : 0 < k) : chunkStarts 0 k = [] := by
  unfold chunkStarts
  rw [Nat.div_eq_of_lt (by omega)]
  rfl

theorem chunkStarts_succ (n k : Nat) (hk : 0 < k) (hn : 0 < n) :
    chunkStarts n k = 0 :: (chunkStarts (n - k) k).map (fun i => i + k) := by
  unfold chunkStarts
  have hm : (n + k - 1) / k = (n - k + k - 1) / k + 1 := by
    rcases le_or_lt n k with h | h
    · have h1 : n - k = 0 := by omega
      have h3 : n + k - 1 = (n - 1) + k := by omega
      rw [h1, h3, Nat.add_div_right _ hk, Nat.div_eq_of_lt (show n - 1 < k by omega),
        Nat.div_eq_of_lt (show 0 + k - 1 < k by omega)]
    · have h2 : n - k + k - 1 = n - 1 := by omega
      have h3 : n + k - 1 = (n - 1) + k := by omega
      rw [h2, h3, Nat.add_div_right _ hk]
  rw [hm, List.range_succ_eq_map, List.map_cons, List.map_map, List.map_map]
  congr 1
  · exact Nat.zero_mul k
  · refine List.map_congr_left ?_
    intro i _
    show (i + 1) * k = i * k + k
    rw [Nat.succ_mul]

theorem tokenWindows_nil (k : Nat) (hk : 0 < k) : tokenWindows [] k = [] := by
  unfold tokenWindows
  rw [show ([] : List Nat).length = 0 from rfl, chunkStarts_zero k hk]
  rfl

theorem tokenWindows_cons {toks : List Nat} {k : Nat} (hk : 0 < k) (hne : toks ≠ []) :
    tokenWindows toks k = toks.take k :: tokenWindows (toks.drop k) k := by
  unfold tokenWindows
  have hn : 0 < toks.length := List.length_pos.mpr hne
  rw [chunkStarts_succ toks.length k hk hn, List.map_cons, List.map_map,
    List.length_drop]
  congr 1
  refine List.map_congr_left ?_
  intro a _
  simp [List.drop_drop, Nat.add_comm]

theorem tokenWindows_flatten_fuel : ∀ (fuelN : Nat) (toks : List Nat) (k : Nat),
    0 < k → toks.length ≤ fuelN → (tokenWindows toks k).flatten = toks := by
  intro fuelN
  induction fuelN with
  | zero =>
    intro toks k hk hl
    have : toks = [] := by
      cases toks
      · rfl
      · simp at hl
    subst this
    rw [tokenWindows_nil k hk]
    rfl
  | succ fuel ih =>
    intro toks k hk hl
    by_cases hne : toks = []
    · subst hne
      rw [tokenWindows_nil k hk]
      rfl
    · rw [tokenWindows_cons hk hne, List.flatten_cons]
      rw [ih (toks.drop k) k hk (by rw [List.length_drop]; omega)]
      exact List.take_append_drop k toks

theorem tokenWindows_flatten (toks : List Nat) (k : Nat) (hk : 0 < k) :
    (tokenWindows toks k).flatten = toks :=
  tokenWindows_flatten_fuel toks.length toks k hk le_rfl

theorem tokenWindows_length (toks : List Nat) (k : Nat) :
    (tokenWindows toks k).length = (toks.length + k - 1) / k := by
  unfold tokenWindows chunkStarts
  simp

/-- C3: for every text whose default-policy encoding succeeds and every
max_tokens k > 0, the chunk splitter's token windows are consecutive slices
whose concatenation reproduces the encoded token sequence exactly, the window
count is ceil(token_count / k) (zero windows for an empty token sequence), and
split_text_into_chunks is precisely the per-window replace-mode decode of
those windows. -/
theorem split_text_into_chunks_windows (e : Encoding) (t : Text) (k : Nat)
    (hk : 0 < k) (toks : List Nat)
    (henc : encode e t (.explicit []) .all = .ok toks) :
    (tokenWindows toks k).flatten = toks ∧
    (tokenWindows toks k).length = (toks.length + k - 1) / k ∧
    (toks = [] → tokenWindows toks k = []) ∧
    split_text_into_chunks e t k =
      exceptMapM (fun w => decode e w .replace) (tokenWindows toks k) := by
  refine ⟨tokenWindows_flatten toks k hk, tokenWindows_length toks k, ?_, ?_⟩
  · intro h
    subst h
    exact tokenWindows_nil k hk
  · unfold split_text_into_chunks
    rw [henc]
    show (if k = 0 then Except.error PyError.valueError
        else exceptMapM (fun w => decode e w DecodeMode.replace) (tokenWindows toks k)) =
      exceptMapM (fun w => decode e w DecodeMode.replace) (tokenWindows toks k)
    rw [if_neg (by omega)]

/-- Witness for C3: the spec's scenario - a 5-token sequence with k = 2 is
windowed as ceil(5/2) = 3 chunks that concatenate back to the sequence, with
window lengths [2, 2, 1]. -/
theorem split_text_into_chunks_windows_witness :
    (tokenWindows [97, 98, 99, 100, 101] 2).flatten = [97, 98, 99, 100, 101] ∧
    (tokenWindows [97, 98, 99, 100, 101] 2).length = 3 ∧
    (tokenWindows [97, 98, 99, 100, 101] 2).map List.length = [2, 2, 1] :=
  ⟨(split_text_into_chunks_windows sampleEnc [97, 98, 99, 100, 101] 2 (by decide)
      [97, 98, 99, 100, 101] rfl).1,
   (split_text_into_chunks_windows sampleEnc [97, 98, 99, 100, 101] 2 (by decide)
      [97, 98, 99, 100, 101] rfl).2.1,
   by decide⟩

/-! Lemmas about offset recovery. -/

theorem nonContCount_flatten : ∀ tbs : List ByteSeq,
    nonContCount tbs.flatten = (tbs.map nonContCount).sum := by
  intro tbs
  induction tbs with
  | nil => rfl
  | cons a l ih =>
    simp only [List.flatten_cons, List.map_cons, List.sum_cons, nonContCount,
      List.countP_append] at ih ⊢
    omega

theorem offsetsGo_spec : ∀ (tbs : List ByteSeq) (start : Nat),
    (∀ tb ∈ tbs, tb ≠ []) →
    ∃ offs, offsetsGo start tbs = some offs ∧ offs.length = tbs.length ∧
      ∀ i, i < tbs.length →
        offs.getD i 0 =
          (if isContByte ((tbs.getD i []).headD 0)
           then start + ((tbs.take i).map nonContCount).sum - 1
           else start + ((tbs.take i).map nonContCount).sum) := by
  intro tbs
  induction tbs with
  | nil =>
    intro start _
    refine ⟨[], rfl, rfl, ?_⟩
    intro i hi
    simp at hi
  | cons tb rest ih =>
    intro start hne
    have htb : tb ≠ [] := hne tb (by simp)
    match tb, htb with
    | b :: tl, _ =>
      obtain ⟨offs, hoffs, hlen, hget⟩ :=
        ih (start + nonContCount (b :: tl)) (fun x hx => hne x (by simp [hx]))
      refine ⟨(start - (if isContByte b then 1 else 0)) :: offs, ?_, ?_, ?_⟩
      · simp only [offsetsGo]
        rw [hoffs]
        rfl
      · simp [hlen]
      · intro i hi
        match i with
        | 0 =>
          cases hb : isContByte b <;> simp [hb]
        | i + 1 =>
          simp only [List.getD_cons_succ]
          rw [hget i (by simpa using hi)]
          have hsum : (((b :: tl) :: rest).take (i + 1)).map nonContCount =
              nonContCount (b :: tl) :: (rest.take i).map nonContCount := rfl
          rw [hsum, List.sum_cons]
          split_ifs <;> omega

theorem offsetsGo_chain : ∀ (tbs : List ByteSeq) (start : Nat) (offs : List Nat),
    offsetsGo start tbs = some offs →
    List.Chain' (fun a b => a ≤ b) offs ∧
    (∀ o ∈ offs, start - 1 ≤ o) ∧
    (∀ o ∈ offs, o ≤ start + (tbs.map nonContCount).sum) := by
  intro tbs
  induction tbs with
  | nil =>
    intro start offs h
    simp only [offsetsGo, Option.some.injEq] at h
    subst h
    simp
  | cons tb rest ih =>
    intro start offs h
    match tb with
    | [] => simp [offsetsGo] at h
    | b :: tl =>
      simp only [offsetsGo] at h
      rw [Option.map_eq_some'] at h
      obtain ⟨offs', hrec, rfl⟩ := h
      obtain ⟨hch, hlow, hhigh⟩ := ih (start + nonContCount (b :: tl)) offs' hrec
      have hncc : (isContByte b = false → 1 ≤ nonContCount (b :: tl)) := by
        intro hb
        rw [nonContCount_cons, hb]
        simp
      refine ⟨?_, ?_, ?_⟩
      · rw [List.chain'_cons']
        refine ⟨?_, hch⟩
        intro y hy
        have hy' := List.mem_of_mem_head? hy
        have hl := hlow y hy'
        split_ifs with hb
        · omega
        · have := hncc (by simpa using hb)
          omega
      · intro o ho
        rcases List.mem_cons.mp ho with rfl | ho'
        · split_ifs <;> omega
        · have := hlow o ho'
          omega
      · intro o ho
        rcases List.mem_cons.mp ho with rfl | ho'
        · simp only [List.map_cons, List.sum_cons]
          split_ifs <;> omega
        · have := hhigh o ho'
          simp only [List.map_cons, List.sum_cons]
          omega

/-- C7: on token lists whose per-token byte sequences are all non-empty, the
offsets loop of decode_with_offsets assigns token i the offset
max(0, running_length - 1) when its first byte is a UTF-8 continuation byte
and running_length otherwise, where running_length sums the non-continuation
byte counts of all earlier tokens (Nat subtraction is the max-with-0), and any
successful decode_with_offsets call returns exactly these offsets. -/
theorem decode_with_offsets_formula (e : Encoding) (toks : List Nat)
    (tbs : List ByteSeq) (hdec : decode_tokens_bytes e toks = .ok tbs)
    (hne : ∀ tb ∈ tbs, tb ≠ []) :
    ∃ offs, offsetsGo 0 tbs = some offs ∧ offs.length = tbs.length ∧
      (∀ i, i < tbs.length →
        offs.getD i 0 =
          (if isContByte ((tbs.getD i []).headD 0)
           then ((tbs.take i).map nonContCount).sum - 1
           else ((tbs.take i).map nonContCount).sum)) ∧
      ∀ text offs2, decode_with_offsets e toks = .ok (text, offs2) → offs2 = offs := by
  obtain ⟨offs, h1, h2, h3⟩ := offsetsGo_spec tbs 0 hne
  refine ⟨offs, h1, h2, ?_, ?_⟩
  · intro i hi
    rw [h3 i hi]
    split_ifs <;> omega
  · intro text offs2 hdo
    unfold decode_with_offsets at hdo
    rw [hdec] at hdo
    replace hdo : (match offsetsGo 0 tbs with
      | none => (Except.error .indexError : Except PyError (Text × List Nat))
      | some offs =>
        match utf8Decode tbs.flatten with
        | none => .error .malformedUtf8
        | some text => .ok (text, offs)) = .ok (text, offs2) := hdo
    rw [h1] at hdo
    replace hdo : (match utf8Decode tbs.flatten with
      | none => (Except.error .malformedUtf8 : Except PyError (Text × List Nat))
      | some text => .ok (text, offs)) = .ok (text, offs2) := hdo
    match hu : utf8Decode tbs.flatten with
    | none =>
      rw [hu] at hdo
      simp at hdo
    | some text' =>
      rw [hu] at hdo
      replace hdo : (Except.ok (text', offs) : Except PyError (Text × List Nat)) =
        .ok (text, offs2) := hdo
      have hpair := Except.ok.inj hdo
      have := congrArg Prod.snd hpair
      simpa using this.symm

/-- Witness for C7: one ordinary token over the byte-level vocabulary. -/
theorem decode_with_offsets_formula_witness :
    ∃ offs, offsetsGo 0 [[97]] = some offs ∧ offs.length = ([[97]] : List ByteSeq).length ∧
      (∀ i, i < ([[97]] : List ByteSeq).length →
        offs.getD i 0 =
          (if isContByte ((([[97]] : List ByteSeq).getD i []).headD 0)
           then ((([[97]] : List ByteSeq).take i).map nonContCount).sum - 1
           else ((([[97]] : List ByteSeq).take i).map nonContCount).sum)) ∧
      ∀ text offs2, decode_with_offsets sampleEnc [97] = .ok (text, offs2) → offs2 = offs :=
  decode_with_offsets_formula sampleEnc [97] [[97]] rfl (by decide)

/-- C8: whenever decode_with_offsets succeeds, the returned offsets are
non-decreasing and each offset is at most the length of the returned decoded
string (whose character count equals the total non-continuation byte count of
valid UTF-8). -/
theorem decode_with_offsets_monotone (e : Encoding) (toks : List Nat) (text : Text)
    (offs : List Nat) (h : decode_with_offsets e toks = .ok (text, offs)) :
    List.Chain' (fun a b => a ≤ b) offs ∧ ∀ o ∈ offs, o ≤ text.length := by
  unfold decode_with_offsets at h
  match hd : decode_tokens_bytes e toks with
  | .error err =>
    rw [hd] at h
    simp at h
  | .ok tbs =>
    rw [hd] at h
    replace h : (match offsetsGo 0 tbs with
      | none => (Except.error .indexError : Except PyError (Text × List Nat))
      | some offs =>
        match utf8Decode tbs.flatten with
        | none => .error .malformedUtf8
        | some text => .ok (text, offs)) = .ok (text, offs) := h
    match ho : offsetsGo 0 tbs with
    | none =>
      rw [ho] at h
      simp at h
    | some offs' =>
      rw [ho] at h
      replace h : (match utf8Decode tbs.flatten with
        | none => (Except.error .malformedUtf8 : Except PyError (Text × List Nat))
        | some text => .ok (text, offs')) = .ok (text, offs) := h
      match hu : utf8Decode tbs.flatten with
      | none =>
        rw [hu] at h
        simp at h
      | some text' =>
        rw [hu] at h
        replace h : (Except.ok (text', offs') : Except PyError (Text × List Nat)) =
          .ok (text, offs) := h
        have hpair := Except.ok.inj h
        have htext : text' = text := congrArg Prod.fst hpair
        have hoffs : offs' = offs := congrArg Prod.snd hpair
        subst htext
        subst hoffs
        obtain ⟨hch, _, hhigh⟩ := offsetsGo_chain tbs 0 offs' ho
        have hlen : text'.length = nonContCount tbs.flatten := utf8DecodeGo_length _ _ _ hu
        have hsum := nonContCount_flatten tbs
        refine ⟨hch, ?_⟩
        intro o ho2
        have := hhigh o ho2
        omega

/-- Witness for C8: decode_with_offsets on one token returns offsets [0] for a
one-character decoded string. -/
theorem decode_with_offsets_monotone_witness :
    List.Chain' (fun a b => a ≤ b) [0] ∧ ∀ o ∈ ([0] : List Nat), o ≤ ([97] : Text).length :=
  decode_with_offsets_monotone sampleEnc [97] [97] [0] rfl

/-! Lemmas about the constructor and the eot_token lookup. -/

theorem le_foldl_max : ∀ (l : List Nat) (a : Nat), a ≤ l.foldl Nat.max a := by
  intro l
  induction l with
  | nil => intro a; exact le_rfl
  | cons x tl ih =>
    intro a
    exact le_trans (Nat.le_max_left a x) (ih (Nat.max a x))

theorem mem_le_foldl_max : ∀ (l : List Nat) (a x : Nat), x ∈ l → x ≤ l.foldl Nat.max a := by
  intro l
  induction l with
  | nil =>
    intro a x hx
    simp at hx
  | cons y tl ih =>
    intro a x hx
    rcases List.mem_cons.mp hx with rfl | hx'
    · exact le_trans (Nat.le_max_right a x) (le_foldl_max tl (Nat.max a x))
    · exact ih (Nat.max a y) x hx'

theorem foldl_max_le : ∀ (l : List Nat) (a c : Nat), a ≤ c → (∀ x ∈ l, x ≤ c) →
    l.foldl Nat.max a ≤ c := by
  intro l
  induction l with
  | nil => intro a c h _; exact h
  | cons x tl ih =>
    intro a c ha hall
    refine ih (Nat.max a x) c ?_ (fun y hy => hall y (by simp [hy]))
    exact Nat.max_le.mpr ⟨ha, hall x (by simp)⟩

theorem foldl_max_eq (l : List Nat) (m : Nat) (hub : ∀ x ∈ l, x ≤ m) (hmem : m ∈ l) :
    l.foldl Nat.max 0 = m :=
  Nat.le_antisymm (foldl_max_le l 0 m (Nat.zero_le m) hub) (mem_le_foldl_max l 0 m hmem)

theorem find?_key_unique : ∀ (l : List (Text × Nat)) (s : Text) (v : Nat),
    (l.map Prod.fst).Nodup → (s, v) ∈ l →
    l.find? (fun p => decide (p.1 = s)) = some (s, v) := by
  intro l
  induction l with
  | nil =>
    intro s v _ hm
    simp at hm
  | cons q tl ih =>
    intro s v hnd hm
    rw [List.map_cons, List.nodup_cons] at hnd
    by_cases hq : q.1 = s
    · have : q = (s, v) := by
        rcases List.mem_cons.mp hm with h | h
        · exact h.symm
        · exfalso
          apply hnd.1
          rw [hq]
          exact List.mem_map.mpr ⟨(s, v), h, rfl⟩
      rw [List.find?_cons_of_pos _ (by rw [decide_eq_true_eq]; exact hq)]
      rw [this]
    · rw [List.find?_cons_of_neg _ (by rw [decide_eq_true_eq] at *; exact hq)]
      refine ih s v hnd.2 ?_
      rcases List.mem_cons.mp hm with h | h
      · exfalso
        apply hq
        rw [← h]
      · exact h

theorem mkEncoding_cons_none (name : String) (patSplit : Text → List Text)
    (q : ByteSeq × Nat) (qs : List (ByteSeq × Nat)) (specials : List (Text × Nat)) :
    mkEncoding name patSplit (q :: qs) specials none =
      .ok (Encoding.mk name patSplit (q :: qs) specials
        (Nat.max (((q :: qs).map Prod.snd).foldl Nat.max 0)
          ((specials.map Prod.snd).foldl Nat.max 0))) := rfl

theorem mkEncoding_cons_some (name : String) (patSplit : Text → List Text)
    (q : ByteSeq × Nat) (qs : List (ByteSeq × Nat)) (specials : List (Text × Nat))
    (n : Nat) :
    mkEncoding name patSplit (q :: qs) specials (some n) =
      (if n ≠ 0 then
        if ((q :: qs).length + specials.length = n ∧
            Nat.max (((q :: qs).map Prod.snd).foldl Nat.max 0)
              ((specials.map Prod.snd).foldl Nat.max 0) = n - 1) then
          .ok (Encoding.mk name patSplit (q :: qs) specials
            (Nat.max (((q :: qs).map Prod.snd).foldl Nat.max 0)
              ((specials.map Prod.snd).foldl Nat.max 0)))
        else .error .assertionError
      else
        .ok (Encoding.mk name patSplit (q :: qs) specials
          (Nat.max (((q :: qs).map Prod.snd).foldl Nat.max 0)
            ((specials.map Prod.snd).foldl Nat.max 0)))) := rfl

/-- C9 (amended): for a vocabulary with M >= 1 dense mergeable ranks [0, M)
and S special ids in [M, M+S), construction sets max_token_value to
max(M-1, M+S-1); and when a NONZERO explicit vocabulary size is declared,
construction succeeds exactly when M + S equals it (in which case
max_token_value is size - 1).  The amendment restricts the declared size to be
nonzero: the source guards the assertions with the truthiness of
explicit_n_vocab, so a declared size of 0 skips them. -/
theorem mkEncoding_spec (name : String) (patSplit : Text → List Text)
    (ranks : Ranks) (specials : List (Text × Nat)) (M S : Nat)
    (hM : 1 ≤ M) (hlenR : ranks.length = M)
    (hRlt : ∀ p ∈ ranks, p.2 < M) (hRtop : M - 1 ∈ ranks.map Prod.snd)
    (hlenS : specials.length = S)
    (hSrange : ∀ p ∈ specials, M ≤ p.2 ∧ p.2 < M + S)
    (hStop : S ≠ 0 → M + S - 1 ∈ specials.map Prod.snd) :
    (mkEncoding name patSplit ranks specials none =
      .ok { name := name, patSplit := patSplit, mergeable_ranks := ranks,
            special_tokens := specials,
            max_token_value := Nat.max (M - 1) (M + S - 1) }) ∧
    ∀ n : Nat, n ≠ 0 →
      (isOkB (mkEncoding name patSplit ranks specials (some n)) = true ↔ M + S = n) := by
  match ranks, hlenR with
  | [], hlen =>
    exfalso
    simp at hlen
    omega
  | q :: qs, hlen =>
    have hmax1 : ((q :: qs).map Prod.snd).foldl Nat.max 0 = M - 1 := by
      refine foldl_max_eq _ _ ?_ hRtop
      intro x hx
      rw [List.mem_map] at hx
      obtain ⟨p, hp, rfl⟩ := hx
      have := hRlt p hp
      omega
    have hmax2 : Nat.max (((q :: qs).map Prod.snd).foldl Nat.max 0)
        ((specials.map Prod.snd).foldl Nat.max 0) = Nat.max (M - 1) (M + S - 1) := by
      rw [hmax1]
      by_cases hS : S = 0
      · subst hS
        have : specials = [] := by
          cases specials
          · rfl
          · simp at hlenS
        subst this
        show Nat.max (M - 1) 0 = Nat.max (M - 1) (M + 0 - 1)
        simp only [Nat.max_def]
        split_ifs <;> omega
      · have hm2 : (specials.map Prod.snd).foldl Nat.max 0 = M + S - 1 := by
          refine foldl_max_eq _ _ ?_ (hStop hS)
          intro x hx
          rw [List.mem_map] at hx
          obtain ⟨p, hp, rfl⟩ := hx
          have := (hSrange p hp).2
          omega
        rw [hm2]
    constructor
    · rw [mkEncoding_cons_none, hmax2]
    · intro n hn
      constructor
      · intro hok
        by_cases hc : ((q :: qs).length + specials.length = n ∧
            Nat.max (((q :: qs).map Prod.snd).foldl Nat.max 0)
              ((specials.map Prod.snd).foldl Nat.max 0) = n - 1)
        · have := hc.1
          rw [hlen, hlenS] at this
          exact this
        · exfalso
          rw [mkEncoding_cons_some, if_pos hn, if_neg hc] at hok
          simp [isOkB] at hok
      · intro hMS
        have hc : ((q :: qs).length + specials.length = n ∧
            Nat.max (((q :: qs).map Prod.snd).foldl Nat.max 0)
              ((specials.map Prod.snd).foldl Nat.max 0) = n - 1) := by
          constructor
          · rw [hlen, hlenS]
            exact hMS
          · rw [hmax2]
            simp only [Nat.max_def]
            split_ifs <;> omega
        rw [mkEncoding_cons_some, if_pos hn, if_pos hc]
        rfl

/-- Witness for C9: a dense two-rank, one-special vocabulary: with no declared
size construction succeeds with max_token_value max(1, 2) = 2, and with
declared size 3 = M + S it succeeds. -/
theorem mkEncoding_spec_witness :
    (mkEncoding "v" (fun t => [t]) [([0], 0), ([1], 1)] [([60], 2)] none =
      .ok { name := "v", patSplit := fun t => [t],
            mergeable_ranks := [([0], 0), ([1], 1)],
            special_tokens := [([60], 2)],
            max_token_value := Nat.max (2 - 1) (2 + 1 - 1) }) ∧
    isOkB (mkEncoding "v" (fun t => [t]) [([0], 0), ([1], 1)] [([60], 2)] (some 3)) = true :=
  ⟨(mkEncoding_spec "v" (fun t => [t]) [([0], 0), ([1], 1)] [([60], 2)] 2 1
      (by decide) rfl (by decide) (by decide) rfl (by decide)
      (fun _ => by decide)).1,
   ((mkEncoding_spec "v" (fun t => [t]) [([0], 0), ([1], 1)] [([60], 2)] 2 1
      (by decide) rfl (by decide) (by decide) rfl (by decide)
      (fun _ => by decide)).2 3 (by decide)).mpr rfl⟩

/-- Counterexample to C9 as stated: with M = 1 dense ranks, S = 0 specials and
declared vocabulary size 0, construction succeeds although M + S = 1 is not 0,
because the source tests the truthiness of explicit_n_vocab and 0 is falsy, so
the assertions are skipped. -/
theorem mkEncoding_counterexample :
    ¬ (∀ (name : String) (patSplit : Text → List Text) (ranks : Ranks)
        (specials : List (Text × Nat)) (M S : Nat),
        1 ≤ M → ranks.length = M → (∀ p ∈ ranks, p.2 < M) →
        (M - 1) ∈ ranks.map Prod.snd → specials.length = S →
        (∀ p ∈ specials, M ≤ p.2 ∧ p.2 < M + S) →
        (S ≠ 0 → (M + S - 1) ∈ specials.map Prod.snd) →
        ∀ n : Nat,
          isOkB (mkEncoding name patSplit ranks specials (some n)) = true →
          M + S = n) := by
  intro h
  have := h "v" (fun t => [t]) [([0], 0)] [] 1 0 (by decide) rfl (by decide)
    (by decide) rfl (by decide) (fun hs => absurd rfl hs) 0 rfl
  omega

/-- C10: eot_token returns the id mapped to the empty-string key of the
special-token table: it fails with the key-lookup error exactly when no entry
has the empty literal, and returns the id of the empty-literal entry when the
table (a dict, so with unique keys) has one. -/
theorem eot_token_spec (e : Encoding) :
    (eot_token e = .error .keyError ↔ ∀ p ∈ e.special_tokens, p.1 ≠ []) ∧
    ∀ v : Nat, ([], v) ∈ e.special_tokens →
      (e.special_tokens.map Prod.fst).Nodup → eot_token e = .ok v := by
  constructor
  · unfold eot_token
    cases hf : e.special_tokens.find? (fun p => decide (p.1 = ([] : Text))) with
    | some p =>
      have hmem := List.mem_of_find?_eq_some hf
      have hpred := List.find?_some hf
      rw [decide_eq_true_eq] at hpred
      refine ⟨fun h => by simp at h, fun h => absurd hpred (h p hmem)⟩
    | none =>
      constructor
      · intro _ p hp hnil
        have := List.find?_eq_none.mp hf p hp
        rw [hnil] at this
        simp at this
      · intro _
        rfl
  · intro v hmem hnodup
    unfold eot_token
    rw [find?_key_unique e.special_tokens [] v hnodup hmem]

/-- Witness for C10: a table without an empty-string key makes eot_token fail
with the key error; a table mapping the empty string to 7 returns 7. -/
theorem eot_token_spec_witness :
    eot_token sampleEnc = .error .keyError ∧ eot_token emptyKeyEnc = .ok 7 :=
  ⟨(eot_token_spec sampleEnc).1.mpr (by decide),
   (eot_token_spec emptyKeyEnc).2 7 (by decide) (by decide)⟩

/-! Lemmas about the special-token scan and segmentation. -/

theorem isPre_iff {s u : Text} : isPre s u = true ↔ u.take s.length = s := by
  unfold isPre
  exact decide_eq_true_iff

theorem occursAt_zero_iff {s t : Text} : occursAt s t 0 ↔ t.take s.length = s := by
  unfold occursAt
  rw [List.drop_zero]

theorem occursAt_succ_cons {s : Text} {c : Nat} {rest : Text} {n : Nat} :
    occursAt s (c :: rest) (n + 1) ↔ occursAt s rest n := by
  unfold occursAt
  rw [List.drop_succ_cons]

theorem occursAt_shift {s x post : Text} {n : Nat} (h : occursAt s post n) :
    occursAt s (x ++ post) (x.length + n) := by
  unfold occursAt at h ⊢
  rw [List.drop_append]
  exact h

theorem occursAt_self (s pre post : Text) :
    occursAt s (pre ++ (s ++ post)) pre.length := by
  unfold occursAt
  rw [show pre.length = pre.length + 0 from rfl, List.drop_append, List.drop_zero,
    List.take_left]

theorem findDisallowed_nil (dis : List Text) :
    findDisallowed dis [] = dis.find? (fun s => decide (s = ([] : Text))) := rfl

theorem findDisallowed_cons (dis : List Text) (c : Nat) (rest : Text) :
    findDisallowed dis (c :: rest) =
      (match dis.find? (fun s => isPre s (c :: rest)) with
       | some s => some s
       | none => findDisallowed dis rest) := rfl

theorem findDisallowed_none (dis : List Text) : ∀ t : Text,
    (∀ s ∈ dis, ∀ n, n ≤ t.length → ¬ occursAt s t n) →
    findDisallowed dis t = none := by
  intro t
  induction t with
  | nil =>
    intro h
    rw [findDisallowed_nil, List.find?_eq_none]
    intro s hs
    rw [decide_eq_true_iff]
    intro heq
    refine h s hs 0 (Nat.le_refl 0) ?_
    rw [heq]
    rfl
  | cons c rest ih =>
    intro h
    rw [findDisallowed_cons]
    have hfind : dis.find? (fun s => isPre s (c :: rest)) = none := by
      rw [List.find?_eq_none]
      intro s hs hpre
      exact h s hs 0 (Nat.zero_le _) (occursAt_zero_iff.mpr (isPre_iff.mp hpre))
    rw [hfind]
    exact ih (fun s hs n hn hocc =>
      h s hs (n + 1) (by simp only [List.length_cons]; omega) (occursAt_succ_cons.mpr hocc))

theorem findDisallowed_finds (dis : List Text) (s : Text) (hs : s ∈ dis)
    (hsne : s ≠ []) : ∀ pre post : Text,
    (∀ s' ∈ dis, ∀ n, n ≤ (pre ++ (s ++ post)).length →
      occursAt s' (pre ++ (s ++ post)) n → s' = s ∧ n = pre.length) →
    findDisallowed dis (pre ++ (s ++ post)) = some s := by
  intro pre
  induction pre with
  | nil =>
    intro post huniq
    match s, hsne with
    | sc :: stl, _ =>
      rw [List.nil_append, List.cons_append, findDisallowed_cons]
      cases hfind : dis.find? (fun s' => isPre s' (sc :: (stl ++ post))) with
      | none =>
        exfalso
        have := List.find?_eq_none.mp hfind (sc :: stl) hs
        apply this
        rw [isPre_iff, ← List.cons_append, List.take_left]
      | some s2 =>
        have hpred := List.find?_some hfind
        have hmem := List.mem_of_find?_eq_some hfind
        have hocc : occursAt s2 ((sc :: stl) ++ post) 0 :=
          occursAt_zero_iff.mpr (isPre_iff.mp hpred)
        have h2 := huniq s2 hmem 0 (Nat.zero_le _)
          (by rw [List.nil_append]; exact hocc)
        rw [h2.1]
  | cons c pre' ih =>
    intro post huniq
    rw [List.cons_append, findDisallowed_cons]
    have hfind : dis.find? (fun s' => isPre s' (c :: (pre' ++ (s ++ post)))) = none := by
      rw [List.find?_eq_none]
      intro s' hs' hpre
      have hocc : occursAt s' ((c :: pre') ++ (s ++ post)) 0 :=
        occursAt_zero_iff.mpr (isPre_iff.mp hpre)
      have := (huniq s' hs' 0 (Nat.zero_le _) hocc).2
      simp at this
    rw [hfind]
    refine ih post ?_
    intro s' hs' n hn hocc
    have := huniq s' hs' (n + 1)
      (by simp only [List.cons_append, List.length_cons]; omega)
      (occursAt_succ_cons.mpr hocc)
    refine ⟨this.1, ?_⟩
    have h2 := this.2
    simp only [List.length_cons] at h2
    omega

theorem splitFirstSpecial_nil (entries : List (Text × Nat)) :
    splitFirstSpecial entries [] =
      (entries.find? (fun p => decide (p.1 = ([] : Text)))).map
        (fun p => (([] : Text), p.2, ([] : Text))) := rfl

theorem splitFirstSpecial_cons (entries : List (Text × Nat)) (c : Nat) (rest : Text) :
    splitFirstSpecial entries (c :: rest) =
      (match entries.find? (fun p => isPre p.1 (c :: rest)) with
       | some p => some (([] : Text), p.2, (c :: rest).drop p.1.length)
       | none => (splitFirstSpecial entries rest).map
           (fun q => (c :: q.1, q.2.1, q.2.2))) := rfl

theorem splitFirstSpecial_none (entries : List (Text × Nat)) : ∀ t : Text,
    (∀ p ∈ entries, ∀ n, n ≤ t.length → ¬ occursAt p.1 t n) →
    splitFirstSpecial entries t = none := by
  intro t
  induction t with
  | nil =>
    intro h
    rw [splitFirstSpecial_nil]
    have hfind : entries.find? (fun p => decide (p.1 = ([] : Text))) = none := by
      rw [List.find?_eq_none]
      intro p hp
      rw [decide_eq_true_iff]
      intro heq
      refine h p hp 0 (Nat.le_refl 0) ?_
      rw [heq]
      rfl
    rw [hfind]
    rfl
  | cons c rest ih =>
    intro h
    rw [splitFirstSpecial_cons]
    have hfind : entries.find? (fun p => isPre p.1 (c :: rest)) = none := by
      rw [List.find?_eq_none]
      intro p hp hpre
      exact h p hp 0 (Nat.zero_le _) (occursAt_zero_iff.mpr (isPre_iff.mp hpre))
    rw [hfind]
    rw [ih (fun p hp n hn hocc =>
      h p hp (n + 1) (by simp only [List.length_cons]; omega) (occursAt_succ_cons.mpr hocc))]
    rfl

theorem splitFirstSpecial_single {s : Text} (tokId : Nat) (hsne : s ≠ []) :
    ∀ pre post : Text,
    (∀ n, n ≤ (pre ++ (s ++ post)).length → occursAt s (pre ++ (s ++ post)) n →
      n = pre.length) →
    splitFirstSpecial [(s, tokId)] (pre ++ (s ++ post)) = some (pre, tokId, post) := by
  intro pre
  induction pre with
  | nil =>
    intro post huniq
    match s, hsne with
    | sc :: stl, _ =>
      rw [List.nil_append, List.cons_append, splitFirstSpecial_cons]
      have hfind : ([((sc :: stl : Text), tokId)]).find?
          (fun p => isPre p.1 (sc :: (stl ++ post))) = some ((sc :: stl : Text), tokId) := by
        refine List.find?_cons_of_pos _ ?_
        show isPre (sc :: stl) (sc :: (stl ++ post)) = true
        rw [isPre_iff, ← List.cons_append, List.take_left]
      rw [hfind]
      show some (([] : Text), tokId, ((sc :: stl) ++ post).drop (sc :: stl).length) =
        some (([] : Text), tokId, post)
      rw [List.drop_left]
  | cons c pre' ih =>
    intro post huniq
    rw [List.cons_append, splitFirstSpecial_cons]
    have hfind : ([(s, tokId)]).find? (fun p => isPre p.1 (c :: (pre' ++ (s ++ post)))) =
        none := by
      rw [List.find?_eq_none]
      intro p hp hpre
      rw [List.mem_singleton] at hp
      subst hp
      have hocc : occursAt s ((c :: pre') ++ (s ++ post)) 0 :=
        occursAt_zero_iff.mpr (isPre_iff.mp hpre)
      have := huniq 0 (Nat.zero_le _) hocc
      simp at this
    rw [hfind]
    have hih := ih post (fun n hn hocc => by
      have := huniq (n + 1)
        (by simp only [List.cons_append, List.length_cons]; omega)
        (occursAt_succ_cons.mpr hocc)
      simp only [List.length_cons] at this
      omega)
    rw [hih]
    rfl

theorem coreGo_succ (e : Encoding) (entries : List (Text × Nat)) (fuel : Nat) (t : Text) :
    coreEncodeSpecialGo e entries (fuel + 1) t =
      (match splitFirstSpecial entries t with
       | none => coreOrdinaryTokens e t
       | some (pre, tokId, post) =>
         coreOrdinaryTokens e pre ++ tokId :: coreEncodeSpecialGo e entries fuel post) := rfl

theorem coreGo_of_none {e : Encoding} {entries : List (Text × Nat)} {t : Text}
    (h : splitFirstSpecial entries t = none) :
    ∀ fuel : Nat, coreEncodeSpecialGo e entries fuel t = coreOrdinaryTokens e t := by
  intro fuel
  cases fuel with
  | zero => rfl
  | succ fuel =>
    rw [coreGo_succ, h]

theorem filter_mem_single : ∀ (l : List (Text × Nat)) (s : Text) (v : Nat),
    (l.map Prod.fst).Nodup → (s, v) ∈ l →
    l.filter (fun p => decide (p.1 ∈ ([s] : List Text))) = [(s, v)] := by
  intro l
  induction l with
  | nil =>
    intro s v _ hm
    simp at hm
  | cons q tl ih =>
    intro s v hnd hm
    rw [List.map_cons, List.nodup_cons] at hnd
    by_cases hq : q.1 = s
    · have hqe : q = (s, v) := by
        rcases List.mem_cons.mp hm with h | h
        · exact h.symm
        · exfalso
          apply hnd.1
          rw [hq]
          exact List.mem_map.mpr ⟨(s, v), h, rfl⟩
      rw [List.filter_cons_of_pos (by simp [hq])]
      have htl : tl.filter (fun p => decide (p.1 ∈ ([s] : List Text))) = [] := by
        rw [List.filter_eq_nil_iff]
        intro p hp
        simp only [List.mem_singleton, decide_eq_true_eq]
        intro hps
        apply hnd.1
        rw [hq, ← hps]
        exact List.mem_map.mpr ⟨p, hp, rfl⟩
      rw [htl, hqe]
    · rw [List.filter_cons_of_neg (by simp [hq])]
      refine ih s v hnd.2 ?_
      rcases List.mem_cons.mp hm with h | h
      · exfalso
        apply hq
        rw [← h]
      · exact h

theorem allowedEntries_single {e : Encoding} {s : Text} {tokId : Nat}
    (hnd : (e.special_tokens.map Prod.fst).Nodup) (hmem : (s, tokId) ∈ e.special_tokens) :
    allowedEntries e [s] = [(s, tokId)] :=
  filter_mem_single e.special_tokens s tokId hnd hmem

theorem resolveDisallowed_default (e : Encoding) :
    resolveDisallowed e (.explicit []) .all = special_tokens_set e := by
  unfold resolveDisallowed
  exact List.filter_eq_self.mpr (fun a _ => by simp [resolveAllowed])

theorem coreOrdinaryTokens_ranks {e : Encoding}
    (hcov : ∀ b, b < 256 → (lookupRank e.mergeable_ranks [b]).isSome = true)
    (hsplit : ∀ u : Text, (e.patSplit u).flatten = u)
    (u : Text) (hs : ∀ c ∈ u, isScalar c = true) :
    ∀ x ∈ coreOrdinaryTokens e u, x ∈ e.mergeable_ranks.map Prod.snd := by
  intro x hx
  unfold coreOrdinaryTokens at hx
  rw [List.mem_flatten] at hx
  obtain ⟨l, hl, hxl⟩ := hx
  rw [List.mem_map] at hl
  obtain ⟨p, hp, rfl⟩ := hl
  unfold encodePiece at hxl
  rw [List.mem_map] at hxl
  obtain ⟨g, hg, rfl⟩ := hxl
  have hpscal : ∀ c ∈ p, isScalar c = true := by
    intro c hc
    refine hs c ?_
    rw [← hsplit u]
    exact List.mem_flatten.mpr ⟨p, hp, hc⟩
  have hb : ∀ b ∈ utf8Bytes p, b < 256 := utf8Bytes_lt p hpscal
  have hin := bytePairMerge_in_table e.mergeable_ranks (utf8Bytes p)
    (fun b hbp => hcov b (hb b hbp)) g hg
  rw [Option.isSome_iff_exists] at hin
  obtain ⟨r, hr⟩ := hin
  rw [hr]
  exact List.mem_map.mpr ⟨(g, r), lookupRank_mem hr, rfl⟩

theorem byteRanks_snd_lt : ∀ p ∈ byteRanks, p.2 < 256 := by
  intro p hp
  unfold byteRanks at hp
  rw [List.mem_map] at hp
  obtain ⟨b, hb, rfl⟩ := hp
  exact List.mem_range.mp hb

/-- C2: for a text pre ++ (s ++ post) in which the special literal s (with
reserved id tokId) occurs exactly once and no other special literal occurs,
encode under the default policy (allowed empty, disallowed "all") fails with
DisallowedSpecialToken naming s - the scan precedes any tokenization, so this
holds even before engine work - while encode with allowed_special = {s}
succeeds, producing the ordinary tokens of pre, then exactly one token equal
to s's reserved id at the literal's position, then the ordinary tokens of
post. -/
theorem encode_special_token (e : Encoding) (s : Text) (tokId : Nat) (pre post : Text)
    (hkeys : (e.special_tokens.map Prod.fst).Nodup)
    (hmem : (s, tokId) ∈ e.special_tokens)
    (hsne : s ≠ [])
    (huniq : ∀ s' ∈ special_tokens_set e, ∀ n, n ≤ (pre ++ (s ++ post)).length →
      occursAt s' (pre ++ (s ++ post)) n → s' = s ∧ n = pre.length)
    (hscal : (pre ++ (s ++ post)).all isScalar = true)
    (hcov : ∀ b, b < 256 → (lookupRank e.mergeable_ranks [b]).isSome = true)
    (hsplit : ∀ u : Text, (e.patSplit u).flatten = u)
    (hid : ∀ p ∈ e.mergeable_ranks, p.2 ≠ tokId) :
    encode e (pre ++ (s ++ post)) (.explicit []) .all =
      .error (.disallowedSpecialToken s) ∧
    encode e (pre ++ (s ++ post)) (.explicit [s]) .all =
      .ok (coreOrdinaryTokens e pre ++ tokId :: coreOrdinaryTokens e post) ∧
    (coreOrdinaryTokens e pre ++ tokId :: coreOrdinaryTokens e post).count tokId = 1 := by
  have hskeys : s ∈ special_tokens_set e := List.mem_map.mpr ⟨(s, tokId), hmem, rfl⟩
  have hsall : ∀ c ∈ pre ++ (s ++ post), isScalar c = true := List.all_eq_true.mp hscal
  refine ⟨?_, ?_, ?_⟩
  · unfold encode
    rw [resolveDisallowed_default e, if_pos (List.ne_nil_of_mem hskeys),
      findDisallowed_finds (special_tokens_set e) s hskeys hsne pre post huniq]
  · have hnone : findDisallowed (resolveDisallowed e (.explicit [s]) SpecialArg.all)
        (pre ++ (s ++ post)) = none := by
      refine findDisallowed_none _ _ ?_
      intro s' hs' n hn hocc
      unfold resolveDisallowed at hs'
      rw [List.mem_filter] at hs'
      have hneq : s' ≠ s := by
        have h2 := hs'.2
        simp only [resolveAllowed, List.mem_singleton, decide_eq_true_eq] at h2
        exact h2
      exact hneq (huniq s' hs'.1 n hn hocc).1
    have hsel : (if resolveDisallowed e (.explicit [s]) SpecialArg.all ≠ [] then
        findDisallowed (resolveDisallowed e (.explicit [s]) SpecialArg.all)
          (pre ++ (s ++ post)) else none) = none := by
      split_ifs
      · exact hnone
      · rfl
    unfold encode
    rw [hsel]
    have hcore : coreEncode e (resolveAllowed e (.explicit [s])) (pre ++ (s ++ post)) =
        .ok (coreSpecialTokens e [s] (pre ++ (s ++ post))) := by
      show coreEncode e [s] (pre ++ (s ++ post)) = _
      unfold coreEncode
      rw [if_pos hscal]
    rw [hcore]
    have htok : coreSpecialTokens e [s] (pre ++ (s ++ post)) =
        coreOrdinaryTokens e pre ++ tokId :: coreOrdinaryTokens e post := by
      unfold coreSpecialTokens
      rw [allowedEntries_single hkeys hmem]
      have hsingle := splitFirstSpecial_single tokId hsne pre post
        (fun n hn hocc => (huniq s hskeys n hn hocc).2)
      have hpost : splitFirstSpecial [(s, tokId)] post = none := by
        refine splitFirstSpecial_none _ post ?_
        intro p hp n hn hocc
        rw [List.mem_singleton] at hp
        subst hp
        have hshift : occursAt s (pre ++ (s ++ post)) (pre.length + (s.length + n)) :=
          occursAt_shift (occursAt_shift hocc)
        have hidx := (huniq s hskeys (pre.length + (s.length + n))
          (by simp only [List.length_append]; omega) hshift).2
        have hslen : s.length ≠ 0 := fun h0 => hsne (List.eq_nil_of_length_eq_zero h0)
        omega
      rw [coreGo_succ, hsingle]
      show coreOrdinaryTokens e pre ++
          tokId :: coreEncodeSpecialGo e [(s, tokId)] (pre ++ (s ++ post)).length post =
        coreOrdinaryTokens e pre ++ tokId :: coreOrdinaryTokens e post
      rw [coreGo_of_none hpost]
    rw [htok]
  · have hprecount : (coreOrdinaryTokens e pre).count tokId = 0 := by
      rw [List.count_eq_zero]
      intro hmem'
      have hx := coreOrdinaryTokens_ranks hcov hsplit pre
        (fun c hc => hsall c (List.mem_append.mpr (Or.inl hc))) tokId hmem'
      rw [List.mem_map] at hx
      obtain ⟨p, hp, hp2⟩ := hx
      exact hid p hp hp2
    have hpostcount : (coreOrdinaryTokens e post).count tokId = 0 := by
      rw [List.count_eq_zero]
      intro hmem'
      have hx := coreOrdinaryTokens_ranks hcov hsplit post
        (fun c hc => hsall c (List.mem_append.mpr
          (Or.inr (List.mem_append.mpr (Or.inr hc))))) tokId hmem'
      rw [List.mem_map] at hx
      obtain ⟨p, hp, hp2⟩ := hx
      exact hid p hp hp2
    rw [List.count_append, hprecount]
    simp [List.count_cons, hpostcount]

/-- Witness for C2: over the byte-level vocabulary with special literal [60]
(id 256), the text [97, 60, 98] is rejected by the default policy naming [60],
and with allowed_special containing [60] it encodes to [97, 256, 98] with the
reserved id appearing exactly once, in the literal's position. -/
theorem encode_special_token_witness :
    encode sampleEnc [97, 60, 98] (.explicit []) .all =
      .error (.disallowedSpecialToken [60]) ∧
    encode sampleEnc [97, 60, 98] (.explicit [[60]]) .all = .ok [97, 256, 98] ∧
    ([97, 256, 98] : List Nat).count 256 = 1 :=
  encode_special_token sampleEnc [60] 256 [97] [98]
    (by decide) (by decide) (by decide) (by decide) (by decide)
    sampleEnc_cov sampleEnc_split
    (fun p hp => Nat.ne_of_lt (byteRanks_snd_lt p hp))

end Tokenizer

